import Mathlib

/-!
Verification of minigit (minigit.py): a shallow embedding of the object model,
object store, staging index and commands, with theorems checking the
specification's claims against the code.

Conventions of the embedding:
* Python `bytes` are `List Nat` with values < 256.
* Python `str` is Lean `String`; `.encode()` / `.decode()` are modelled by a
  faithful UTF-8 codec (`encodeChars` / `decodeChars`), with `decodeChars`
  returning `none` on the byte strings Python rejects with UnicodeDecodeError.
* Python dicts are association lists with distinct keys, insertion-ordered,
  with `pyGet` / `pySet` / `pyDel` mirroring `d[k]`, `d[k] = v`, `del d[k]`.
* The SHA-1 hash and the zlib compressor are external libraries; they appear
  as function parameters `H`, `compress`, `decompress` of the operations that
  use them, never as assumed facts except where the spec states their
  contract (decompress inverts compress).
* Filesystem state (the objects directory, the ref file, the index file) is
  passed explicitly: the objects directory is an association list keyed by
  hash hex, the index file by its text content.
-/

namespace MiniGit

/-! ### Python byte and string primitives -/

/-- ASCII whitespace accepted by Python `int()` around a numeric literal. -/
def byteWs (b : Nat) : Bool := (9 ≤ b && b ≤ 13) || b = 32

/-- ASCII decimal digit byte. -/
def isDigitB (b : Nat) : Bool := 48 ≤ b && b ≤ 57

/-- After the first digit, Python `int()` accepts digits with single
underscores strictly between digits. -/
def digitTail : List Nat → Bool
  | [] => true
  | [b] => isDigitB b
  | b :: c :: r2 =>
    if isDigitB b then digitTail (c :: r2)
    else if b = 95 then isDigitB c && digitTail r2
    else false

def pyIntOkCore : List Nat → Bool
  | b :: r => isDigitB b && digitTail r
  | [] => false

def stripBytes (l : List Nat) : List Nat :=
  ((l.dropWhile byteWs).reverse.dropWhile byteWs).reverse

/-- Whether Python `int(bytes)` succeeds: optional surrounding ASCII
whitespace, an optional sign, then a digit string (underscores allowed
between digits).  `object_read` only uses success/failure of `int`, never
the value. -/
def pyIntOk (l : List Nat) : Bool :=
  match stripBytes l with
  | 43 :: r => pyIntOkCore r
  | 45 :: r => pyIntOkCore r
  | r => pyIntOkCore r

/-- Index of the first occurrence of `t` in the list, if any. -/
def findByteAux (t : Nat) : List Nat → Option Nat
  | [] => none
  | b :: r => if b = t then some 0 else (findByteAux t r).map (· + 1)

/-- Python `bytes.find(t, start)`: returns -1 when absent; a negative
`start` counts from the end (clamped at 0). -/
def pyFindB (data : List Nat) (t : Nat) (start : Int) : Int :=
  let st : Nat := if start < 0 then ((data.length : Int) + start).toNat else start.toNat
  match findByteAux t (data.drop st) with
  | some i => ((st + i : Nat) : Int)
  | none => -1

/-- Normalise a Python slice endpoint: negative indices count from the end
(clamped at 0), positive ones are clamped at the length. -/
def normSliceIdx (n : Nat) (i : Int) : Nat :=
  if i < 0 then ((n : Int) + i).toNat else min i.toNat n

/-- Python `data[lo:hi]` on bytes. -/
def pySliceL (data : List Nat) (lo hi : Int) : List Nat :=
  (data.take (normSliceIdx data.length hi)).drop (normSliceIdx data.length lo)

/-! ### UTF-8 codec (Python `str.encode` / `bytes.decode`) -/

def utf8EncodeChar (c : Char) : List Nat :=
  if c.toNat < 128 then [c.toNat]
  else if c.toNat < 2048 then [192 + c.toNat / 64, 128 + c.toNat % 64]
  else if c.toNat < 65536 then
    [224 + c.toNat / 4096, 128 + c.toNat / 64 % 64, 128 + c.toNat % 64]
  else
    [240 + c.toNat / 262144, 128 + c.toNat / 4096 % 64, 128 + c.toNat / 64 % 64,
     128 + c.toNat % 64]

def encodeChars : List Char → List Nat
  | [] => []
  | c :: r => utf8EncodeChar c ++ encodeChars r

def encodeStr (s : String) : List Nat := encodeChars s.data

def isCont (b : Nat) : Bool := 128 ≤ b && b < 192

/-- One UTF-8 scalar: given the lead byte and the remaining bytes, the
decoded code point and the bytes after it; `none` on a continuation-byte
start, a short sequence, a bad continuation byte, an overlong form, a
surrogate or a code point beyond U+10FFFF — exactly the byte strings
Python's strict `.decode()` rejects. -/
def decodeOne (b : Nat) (rest : List Nat) : Option (Nat × List Nat) :=
  if b < 128 then some (b, rest)
  else if b < 194 then none
  else if b < 224 then
    match rest with
    | b1 :: r => if isCont b1 then some ((b - 192) * 64 + (b1 - 128), r) else none
    | [] => none
  else if b < 240 then
    match rest with
    | b1 :: b2 :: r =>
      if isCont b1 && isCont b2 && !(b == 224 && b1 < 160) && !(b == 237 && 160 ≤ b1) then
        some ((b - 224) * 4096 + (b1 - 128) * 64 + (b2 - 128), r)
      else none
    | _ => none
  else if b < 245 then
    match rest with
    | b1 :: b2 :: b3 :: r =>
      if isCont b1 && isCont b2 && isCont b3 && !(b == 240 && b1 < 144) &&
          !(b == 244 && 144 ≤ b1) then
        some ((b - 240) * 262144 + (b1 - 128) * 4096 + (b2 - 128) * 64 + (b3 - 128), r)
      else none
    | _ => none
  else none

/-- Decoding loop; the fuel only makes the recursion structural (each
scalar consumes at least one byte, so fuel = length never runs out). -/
def decodeAuxF : Nat → List Nat → Option (List Char)
  | _, [] => some []
  | 0, _ :: _ => none
  | f + 1, b :: rest =>
    match decodeOne b rest with
    | none => none
    | some (n, r) => (decodeAuxF f r).map (fun cs => Char.ofNat n :: cs)

/-- Strict UTF-8 decoding of a whole byte string (Python `bytes.decode()`):
`none` models UnicodeDecodeError. -/
def decodeChars (l : List Nat) : Option (List Char) := decodeAuxF l.length l

/-! ### Hex codec (Python `bytes.fromhex` / `bytes.hex`) -/

def hexDigitVal (c : Char) : Option Nat :=
  if 48 ≤ c.toNat && c.toNat ≤ 57 then some (c.toNat - 48)
  else if 97 ≤ c.toNat && c.toNat ≤ 102 then some (c.toNat - 87)
  else if 65 ≤ c.toNat && c.toNat ≤ 70 then some (c.toNat - 55)
  else none

def hexDigitChar (v : Nat) : Char := Char.ofNat (if v < 10 then 48 + v else 87 + v)

/-- Python `bytes.fromhex`: two hex digits per byte, spaces permitted
between pairs. -/
def hexDecodeL : List Char → Option (List Nat)
  | [] => some []
  | [c1] => if c1 = ' ' then some [] else none
  | c1 :: c2 :: r =>
    if c1 = ' ' then hexDecodeL (c2 :: r)
    else
      match hexDigitVal c1, hexDigitVal c2, hexDecodeL r with
      | some hi, some lo, some rest => some ((hi * 16 + lo) :: rest)
      | _, _, _ => none
/-- Python `bytes.hex()`: two lowercase digits per byte. -/
def hexEncodeL : List Nat → List Char
  | [] => []
  | b :: r => hexDigitChar (b / 16) :: hexDigitChar (b % 16) :: hexEncodeL r

/-- A lowercase hex digit (the alphabet `bytes.hex()` emits). -/
def isLowerHexChar (c : Char) : Bool :=
  (48 ≤ c.toNat && c.toNat ≤ 57) || (97 ≤ c.toNat && c.toNat ≤ 102)

/-! ### String helpers -/

def startsWithL : List Char → List Char → Bool
  | _, [] => true
  | [], _ :: _ => false
  | c :: s, d :: p => c = d && startsWithL s p

/-- Characters after the first occurrence of `marker`, if it occurs
(Python `text.split(marker, 1)[1]` guarded by `marker in text`). -/
def splitAfterL (marker : List Char) : List Char → Option (List Char)
  | [] => none
  | c :: r =>
    if startsWithL (c :: r) marker then some ((c :: r).drop marker.length)
    else splitAfterL marker r

/-- Line-break characters of Python `str.splitlines`. -/
def breakChar (c : Char) : Bool :=
  let n := c.toNat
  n = 10 || n = 11 || n = 12 || n = 13 || n = 28 || n = 29 || n = 30 ||
  n = 133 || n = 8232 || n = 8233

def splitLinesAux : List Char → List Char → List (List Char)
  | [], acc => if acc.isEmpty then [] else [acc.reverse]
  | '\r' :: '\n' :: r, acc => acc.reverse :: splitLinesAux r []
  | c :: r, acc =>
    if breakChar c then acc.reverse :: splitLinesAux r [] else splitLinesAux r (c :: acc)
/-- Python `str.splitlines()`. -/
def pySplitlinesL (l : List Char) : List (List Char) := splitLinesAux l []

/-- Python `"\n".join(lines)` at character level. -/
def joinNl : List (List Char) → List Char
  | [] => []
  | [l] => l
  | l :: ls => l ++ '\n' :: joinNl ls

/-- Python `str` whitespace (the set used by `str.strip()` / `str.split()`). -/
def pyWsC (c : Char) : Bool :=
  let n := c.toNat
  (9 ≤ n && n ≤ 13) || (28 ≤ n && n ≤ 32) || n = 133 || n = 160 || n = 5760 ||
  (8192 ≤ n && n ≤ 8202) || n = 8232 || n = 8233 || n = 8239 || n = 8287 || n = 12288

/-- Python `str.strip()`. -/
def stripL (l : List Char) : List Char :=
  ((l.dropWhile pyWsC).reverse.dropWhile pyWsC).reverse

def wordsAux : List Char → List Char → List (List Char)
  | [], acc => if acc.isEmpty then [] else [acc.reverse]
  | c :: r, acc =>
    if pyWsC c then
      if acc.isEmpty then wordsAux r [] else acc.reverse :: wordsAux r []
    else wordsAux r (c :: acc)

/-- Python `str.split()` with no arguments: split on whitespace runs,
no empty fields. -/
def pySplitWsL (l : List Char) : List (List Char) := wordsAux l []

/-- Universal-newline translation performed by text-mode file reading:
`\r\n` and `\r` both become `\n`. -/
def normNl : List Char → List Char
  | [] => []
  | '\r' :: '\n' :: r => '\n' :: normNl r
  | '\r' :: r => '\n' :: normNl r
  | c :: r => c :: normNl r
def fileLinesAux : List Char → List Char → List (List Char)
  | [], acc => if acc.isEmpty then [] else [acc.reverse]
  | '\n' :: r, acc => (acc.reverse ++ ['\n']) :: fileLinesAux r []
  | c :: r, acc => fileLinesAux r (c :: acc)

/-- Iterating over the lines of an open text file (`for line in f`):
each line keeps its trailing newline, the last may lack one. -/
def pyFileLinesL (l : List Char) : List (List Char) := fileLinesAux (normNl l) []

/-- Python `s.split(' ', 1)` when it yields exactly two fields; `none`
models the ValueError of unpacking a single field. -/
def splitOnceSpace : List Char → Option (List Char × List Char)
  | [] => none
  | ' ' :: r => some ([], r)
  | c :: r => (splitOnceSpace r).map (fun pr => (c :: pr.1, pr.2))

/-- Python string comparison, character level: lexicographic by code
point. -/
def strLtL : List Char → List Char → Bool
  | _, [] => false
  | [], _ :: _ => true
  | a :: as, b :: bs =>
    if a.toNat < b.toNat then true
    else if b.toNat < a.toNat then false
    else strLtL as bs

/-- Python `a < b` on strings. -/
def pyStrLt (a b : String) : Bool := strLtL a.data b.data

/-- Python `a <= b` on strings (total order, negation of the reverse
strict comparison). -/
def pyStrLe (a b : String) : Bool := !strLtL b.data a.data

/-! ### Python dict as insertion-ordered association list -/

def pyGet {α : Type} : List (String × α) → String → Option α
  | [], _ => none
  | (k0, v0) :: r, k => if k0 = k then some v0 else pyGet r k

def pySet {α : Type} : List (String × α) → String → α → List (String × α)
  | [], k, v => [(k, v)]
  | (k0, v0) :: r, k, v => if k0 = k then (k, v) :: r else (k0, v0) :: pySet r k v

def pyDel {α : Type} : List (String × α) → String → List (String × α)
  | [], _ => []
  | (k0, v0) :: r, k => if k0 = k then r else (k0, v0) :: pyDel r k

def pyKeys {α : Type} (d : List (String × α)) : List String := d.map Prod.fst

/-! ### Object model (GitBlob / GitCommit / GitTree) -/

structure GitBlob where
  data : List Nat
deriving DecidableEq

structure GitCommit where
  tree : Option String
  parent : Option String
  author : Option String
  message : String
deriving DecidableEq

/-- Tree entries are `(mode, path, sha)` triples, the sha as hex text. -/
structure GitTree where
  entries : List (String × String × String)
deriving DecidableEq

def GitBlob.serialize (b : GitBlob) : List Nat := b.data

def GitBlob.deserialize (d : List Nat) : GitBlob := ⟨d⟩

/-- Python `f"... {x}"` of a value that may be None. -/
def pyStrOpt : Option String → List Char
  | none => "None".data
  | some s => s.data

/-- The lines built by `GitCommit.serialize`: tree, optional parent (omitted
when the parent string is falsy, i.e. None or empty), author, committer
(mirrors author), a blank line, then the message. -/
def GitCommit.serializeLines (c : GitCommit) : List (List Char) :=
  ["tree ".data ++ pyStrOpt c.tree] ++
  (match c.parent with
   | some p => if p = "" then [] else ["parent ".data ++ p.data]
   | none => []) ++
  ["author ".data ++ pyStrOpt c.author, "committer ".data ++ pyStrOpt c.author, [],
   c.message.data]

def GitCommit.serialize (c : GitCommit) : List Nat := encodeChars (joinNl c.serializeLines)

/-- The scanning loop of `GitCommit.deserialize`: field lines are recognised
by prefix, the first empty line ends the scan and the remaining lines joined
with newlines form the message.  (When no blank line occurs the Python code
leaves `message` as the empty list `[]`; this is modelled by the empty
string, the only place the embedding papers over a Python type confusion,
and it is unreachable from serialized commits, which always contain the
blank separator line.) -/
def parseCommitGo : List (List Char) → Option String → Option String → Option String → GitCommit
  | [], t, p, a => ⟨t, p, a, ""⟩
  | l :: rest, t, p, a =>
    if startsWithL l "tree ".data then parseCommitGo rest (some ⟨l.drop 5⟩) p a
    else if startsWithL l "parent ".data then parseCommitGo rest t (some ⟨l.drop 7⟩) a
    else if startsWithL l "author ".data then parseCommitGo rest t p (some ⟨l.drop 7⟩)
    else if l.isEmpty then ⟨t, p, a, ⟨joinNl rest⟩⟩
    else parseCommitGo rest t p a

/-- `GitCommit.deserialize`: decode the bytes (`none` = UnicodeDecodeError),
split into lines and scan. -/
def GitCommit.deserialize (d : List Nat) : Option GitCommit :=
  (decodeChars d).map (fun cs => parseCommitGo (pySplitlinesL cs) none none none)

/-- `GitTree.serialize`: each entry contributes `"<mode> <path>"` encoded,
a NUL, then the 20 raw bytes `bytes.fromhex(sha)`; `none` models the
ValueError of `fromhex` on a non-hex sha. -/
def treeSerEntries : List (String × String × String) → Option (List Nat)
  | [] => some []
  | (m, p, sha) :: r =>
    match hexDecodeL sha.data, treeSerEntries r with
    | some sb, some rest => some (encodeChars (m.data ++ ' ' :: p.data) ++ 0 :: (sb ++ rest))
    | _, _ => none

def GitTree.serialize (t : GitTree) : Option (List Nat) := treeSerEntries t.entries

/-- Result of running a Python loop that may raise or fail to terminate. -/
inductive PyRes (α : Type) where
  | ok (a : α)
  | exn
  | timeout
deriving DecidableEq

/-- The `while i < len(data)` loop of `GitTree.deserialize`, with Python's
`find`/slice semantics: `j` is -1 when no NUL remains, in which case the
decoded segment is `data[i:-1]` and the next index becomes 20 — the loop is
not guaranteed to terminate, hence the fuel; `.exn` models the decode or
unpack errors. -/
def treeDeserLoop (data : List Nat) :
    Nat → Nat → List (String × String × String) → PyRes (List (String × String × String))
  | 0, _, _ => .timeout
  | fuel + 1, i, acc =>
    if i < data.length then
      let j := pyFindB data 0 i
      match decodeChars (pySliceL data i j) with
      | none => .exn
      | some mp =>
        match splitOnceSpace mp with
        | none => .exn
        | some (m, p) =>
          treeDeserLoop data fuel (j + 21).toNat
            (acc ++ [(⟨m⟩, ⟨p⟩, ⟨hexEncodeL (pySliceL data (j + 1) (j + 21))⟩)])
    else .ok acc

def GitTree.deserialize (d : List Nat) : PyRes GitTree :=
  match treeDeserLoop d (d.length + 2) 0 [] with
  | .ok es => .ok ⟨es⟩
  | .exn => .exn
  | .timeout => .timeout

/-- The serialized bytes of one tree entry, with the sha already in raw
byte form: `"<mode> <path>"` encoded, a NUL, then the 20 sha bytes. -/
def treeEntryBytes (mode name : String) (sha20 : List Nat) : List Nat :=
  encodeChars (mode.data ++ ' ' :: name.data) ++ 0 :: sha20

/-- Concatenation of serialized tree entries — the byte layout `GitTree`
payloads must follow. -/
def treeBytesOf : List (String × String × List Nat) → List Nat
  | [] => []
  | e :: r => treeEntryBytes e.1 e.2.1 e.2.2 ++ treeBytesOf r

/-- Well-formedness of a raw tree entry: mode without NUL or space, name
without NUL, exactly 20 sha bytes. -/
def treeEntryWf (e : String × String × List Nat) : Bool :=
  e.1.data.all (fun c => !(c.toNat == 0) && !(c.toNat == 32)) &&
  e.2.1.data.all (fun c => !(c.toNat == 0)) &&
  (e.2.2.length == 20)

/-- Well-formedness of a `GitTree` entry as held in memory: mode without
NUL or space, name without NUL, sha exactly 40 lowercase hex digits (the
canonical form `bytes.hex()` produces). -/
def treeEntryOk (e : String × String × String) : Bool :=
  e.1.data.all (fun c => !(c.toNat == 0) && !(c.toNat == 32)) &&
  e.2.1.data.all (fun c => !(c.toNat == 0)) &&
  (e.2.2.data.length == 40) && e.2.2.data.all isLowerHexChar

/-- No `str.splitlines` line-break characters. -/
def noBreakStr (s : String) : Bool := s.data.all (fun c => !breakChar c)

/-- A commit message `splitlines`-joined round-trips: its only line breaks
are plain newlines and it does not end with one. -/
def msgOkStr (s : String) : Bool :=
  s.data.all (fun c => !breakChar c || c == '\n') && !(s.data.getLast? == some '\n')

/-- Conditions under which a `GitCommit` survives serialize/deserialize
unchanged: tree and author present without line breaks, parent absent or a
non-empty string without line breaks, message with newline-only breaks and
no trailing newline. -/
def commitRoundOk (c : GitCommit) : Bool :=
  (match c.tree with | some t => noBreakStr t | none => false) &&
  (match c.author with | some a => noBreakStr a | none => false) &&
  (match c.parent with | none => true | some p => !(p == "") && noBreakStr p) &&
  msgOkStr c.message

/-- No Python `str` whitespace characters. -/
def wsFree (s : String) : Bool := s.data.all (fun c => !pyWsC c)

/-! ### Object store -/

/-- The frame `"<fmt> <len>\0<payload>"` hashed and compressed by
`object_write`. -/
def objectFrame (fmt : String) (data : List Nat) : List Nat :=
  encodeStr (fmt ++ " " ++ toString data.length) ++ 0 :: data

/-- A frame laid out as `"<tag> "` encoded, then explicit length bytes, a
NUL and the payload; `objectFrame` produces exactly this shape with the
decimal digits of the payload length as `lenB`. -/
def frameOf (tag : String) (lenB : List Nat) (payload : List Nat) : List Nat :=
  encodeStr tag ++ 32 :: (lenB ++ 0 :: payload)

/-- `object_write`: hash the frame with `H` (SHA-1 hex in the program),
store the compressed frame at the hash's path unless that path already
exists.  The objects directory is modelled as an association list keyed by
the full hash (the 2-character directory split is a bijective renaming of
the key and is dropped). -/
def object_write (H : List Nat → String) (compress : List Nat → List Nat)
    (store : List (String × List Nat)) (fmt : String) (data : List Nat) :
    String × List (String × List Nat) :=
  let full := objectFrame fmt data
  let sha := H full
  match pyGet store sha with
  | some _ => (sha, store)
  | none => (sha, pySet store sha (compress full))

inductive GitObject where
  | blob (b : GitBlob)
  | tree (t : GitTree)
  | commit (c : GitCommit)
deriving DecidableEq

inductive ReadResult where
  | ok (o : GitObject)
  | objectNotFound
  | corruptFrame
  | unknownObjectType
  | exn
  | timeout
deriving DecidableEq

/-- `object_read`: look up the hash (`objectNotFound` when the path is
absent), decompress, split the frame at the first space and the first NUL
after it with Python's `find`/slice semantics, check `int()` of the length
field (`corruptFrame` on its ValueError; the value itself is unused), then
dispatch on the type tag, `unknownObjectType` for an unknown tag.  `.exn`
covers errors raised inside the variant deserializers. -/
def object_read (decompress : List Nat → List Nat) (store : List (String × List Nat))
    (sha : String) : ReadResult :=
  match pyGet store sha with
  | none => .objectNotFound
  | some raw =>
    let full := decompress raw
    let x := pyFindB full 32 0
    let y := pyFindB full 0 x
    let fmt := pySliceL full 0 x
    if pyIntOk (pySliceL full (x + 1) y) then
      let data := pySliceL full (y + 1) (full.length : Int)
      if fmt = encodeStr "blob" then .ok (.blob (GitBlob.deserialize data))
      else if fmt = encodeStr "commit" then
        match GitCommit.deserialize data with
        | some c => .ok (.commit c)
        | none => .exn
      else if fmt = encodeStr "tree" then
        match GitTree.deserialize data with
        | .ok t => .ok (.tree t)
        | .exn => .exn
        | .timeout => .timeout
      else .unknownObjectType
    else .corruptFrame

/-! ### Index file (read_index / write_index) -/

/-- `write_index`: one `"<path> <sha>\n"` line per staged entry. -/
def write_index (index : List (String × String)) : String :=
  ⟨index.foldr (fun kv acc => kv.1.data ++ ' ' :: kv.2.data ++ '\n' :: acc) []⟩

/-- `read_index` applied to the index file's content: each line is stripped
and whitespace-split, and must yield exactly a path and a sha (`none`
models the unpack ValueError). -/
def read_index (content : String) : Option (List (String × String)) :=
  (pyFileLinesL content.data).foldl
    (fun acc line =>
      acc.bind (fun d =>
        match pySplitWsL (stripL line) with
        | [p, s] => some (pySet d ⟨p⟩ ⟨s⟩)
        | _ => none))
    (some [])

/-! ### Commands -/

/-- The `[files]` trailer parsing shared by `cmd_add`, `cmd_commit` and
`cmd_status`: the text after the first `"[files]"` marker is stripped,
split into lines, and each stripped nonempty line is a tracked path. -/
def parseTrailerPaths (msg : String) : List String :=
  match splitAfterL "[files]".data msg.data with
  | none => []
  | some after =>
    (pySplitlinesL (stripL after)).filterMap
      (fun l => let t := stripL l; if t.isEmpty then none else some ⟨t⟩)

/-- The single-file case of `cmd_add` (the path exists, is a regular file,
already converted to its repository-relative form): tracked = staged keys
plus the head commit's trailer paths; an already tracked path is skipped,
otherwise the file's blob is written (its hash is `H` of the blob frame)
and recorded in the index.  Returns the updated index mapping. -/
def headTrailer : Option String → List String
  | none => []
  | some m => parseTrailerPaths m

def cmd_add_file (H : List Nat → String) (index : List (String × String))
    (headMsg : Option String) (relpath : String) (data : List Nat) :
    List (String × String) :=
  let tracked := pyKeys index ++ headTrailer headMsg
  if tracked.contains relpath then index
  else pySet index relpath (H (objectFrame "blob" data))

/-- `cmd_rm`: fold over the given paths; a staged path is deleted from the
mapping, an absent one is reported (second component) without stopping; the
third component records whether anything was removed — `write_index` is
called afterwards only when it is true, otherwise the persisted index file
is left untouched. -/
def rmStep (st : List (String × String) × List String × Bool) (p : String) :
    List (String × String) × List String × Bool :=
  if (pyKeys st.1).contains p then (pyDel st.1 p, st.2.1, true)
  else (st.1, st.2.1 ++ [p], st.2.2)

def cmd_rm (index : List (String × String)) (paths : List String) :
    List (String × String) × List String × Bool :=
  paths.foldl rmStep (index, [], false)

/-- Outcome of `cmd_commit`.  `nothingToCommit` is the early `return` taken
before any tree or commit object is written, before the ref file is touched
and before the index file is rewritten.  `committed` carries the tree
entries written, the sorted tracked-path list, and the commit message
(including its `[files]` trailer); the program then writes the tree and
commit objects, points the ref at the new commit hash and clears the
index. -/
inductive CommitOutcome where
  | nothingToCommit
  | committed (entries : List (String × String × String)) (tracked : List String)
      (message : String)
deriving DecidableEq

/-- Comparison used for `sorted(new_tracked.items())`: Python compares the
pairs lexicographically, but the keys are distinct dict keys so only the
path component ever decides. -/
def keyLe (a b : String × Option String) : Prop := pyStrLe a.1 b.1 = true

instance : DecidableRel keyLe := fun a b => inferInstanceAs (Decidable (_ = true))

/-- Comparison used for `sorted(new_tracked.keys())`. -/
def strLe (a b : String) : Prop := pyStrLe a b = true

instance : DecidableRel strLe := fun a b => inferInstanceAs (Decidable (_ = true))

/-- `prev_tracked` of `cmd_commit`: each parent-trailer path mapped to None
(its hash is unknown to the engine). -/
def prevTrackedOf (head : Option (String × String)) : List (String × Option String) :=
  match head with
  | none => []
  | some hm => (parseTrailerPaths hm.2).foldl (fun d p => pySet d p none) []

/-- `new_tracked` of `cmd_commit` after the merge and the deletion loop:
start from `prev_tracked`, overwrite with each staged `path → sha`, then
delete every key in neither source (a provable no-op kept for fidelity). -/
def mergedOf (index : List (String × String)) (head : Option (String × String)) :
    List (String × Option String) :=
  let prevTracked := prevTrackedOf head
  let merged0 := index.foldl (fun d kv => pySet d kv.1 (some kv.2)) prevTracked
  (pyKeys merged0).foldl
    (fun d k =>
      if !(pyKeys index).contains k && !(pyKeys prevTracked).contains k then pyDel d k else d)
    merged0

def cmd_commit (index : List (String × String)) (head : Option (String × String))
    (msg0 : String) : CommitOutcome :=
  let merged := mergedOf index head
  if merged.isEmpty then .nothingToCommit
  else
    let entries := (List.insertionSort keyLe merged).filterMap
      (fun kv => match kv.2 with
        | none => none
        | some sha => some (("100644" : String), kv.1, sha))
    let tracked := List.insertionSort strLe (pyKeys merged)
    .committed entries tracked (msg0 ++ "\n\n[files]\n" ++ String.intercalate "\n" tracked)

/-! ### History walk (cmd_log) -/

inductive LogOutcome where
  | ended
  | broken (sha : String)
  | timeout
deriving DecidableEq

/-- The `while sha and sha not in seen` loop of `cmd_log`.  The store maps
commit hashes to commit objects (`object_read` on a commit hash returns the
parsed commit); a failed read prints "Broken commit" and breaks, modelled
by `.broken`.  The fuel only bounds the model; `cmd_log` supplies enough
for every possible run (proved below). -/
def logLoop (store : List (String × GitCommit)) :
    Nat → Option String → List String → List (String × GitCommit) →
    List (String × GitCommit) × LogOutcome
  | 0, _, _, acc => (acc, .timeout)
  | fuel + 1, sha?, seen, acc =>
    match sha? with
    | none => (acc, .ended)
    | some sha =>
      if sha = "" then (acc, .ended)
      else if seen.contains sha then (acc, .ended)
      else
        match pyGet store sha with
        | none => (acc, .broken sha)
        | some c => logLoop store fuel c.parent (sha :: seen) (acc ++ [(sha, c)])

def cmd_log (store : List (String × GitCommit)) (start : String) :
    List (String × GitCommit) × LogOutcome :=
  logLoop store (store.length + 1) (some start) [] []

/-- Decidable description of a stored commit chain: the listed hashes are
nonempty strings, pairwise distinct, each hash resolves to its commit, each
commit's parent is the next listed hash, and the last commit's parent is
`t`. -/
def chainB (store : List (String × GitCommit)) :
    List (String × GitCommit) → Option String → Bool
  | [], _ => true
  | (h, c) :: rest, t =>
    decide (h ≠ "") && !(rest.map Prod.fst).contains h &&
    decide (pyGet store h = some c) &&
    decide (c.parent = match rest with | [] => t | x :: _ => some x.1) &&
    chainB store rest t

/-! ### Dict lemmas -/

theorem pyGet_pySet {α : Type} (d : List (String × α)) (k k' : String) (v : α) :
    pyGet (pySet d k v) k' = if k' = k then some v else pyGet d k' := by
  induction d with
  | nil =>
    show (if k = k' then some v else none) = if k' = k then some v else none
    by_cases h : k = k'
    · rw [if_pos h, if_pos h.symm]
    · rw [if_neg h, if_neg (fun h2 => h h2.symm)]
  | cons kv r ih =>
    obtain ⟨k0, v0⟩ := kv
    by_cases h0 : k0 = k
    · subst h0
      rw [show pySet ((k0, v0) :: r) k0 v = (k0, v) :: r by simp [pySet]]
      show (if k0 = k' then some v else pyGet r k') = _
      by_cases h : k0 = k'
      · rw [if_pos h, if_pos h.symm]
      · rw [if_neg h, if_neg (fun h2 => h h2.symm)]
        show _ = if k0 = k' then some v0 else pyGet r k'
        rw [if_neg h]
    · rw [show pySet ((k0, v0) :: r) k v = (k0, v0) :: pySet r k v by simp [pySet, h0]]
      show (if k0 = k' then some v0 else pyGet (pySet r k v) k') = _
      rw [ih]
      show _ = if k' = k then some v else if k0 = k' then some v0 else pyGet r k'
      by_cases h1 : k0 = k'
      · subst h1
        rw [if_pos rfl, if_neg (fun h2 : k0 = k => h0 h2), if_pos rfl]
      · rw [if_neg h1]
        by_cases h2 : k' = k
        · rw [if_pos h2, if_pos h2]
        · rw [if_neg h2, if_neg h2, if_neg h1]

theorem mem_pyKeys_pySet {α : Type} (d : List (String × α)) (k k' : String) (v : α) :
    k' ∈ pyKeys (pySet d k v) ↔ k' = k ∨ k' ∈ pyKeys d := by
  induction d with
  | nil => simp [pySet, pyKeys]
  | cons kv r ih =>
    obtain ⟨k0, v0⟩ := kv
    by_cases h0 : k0 = k
    · subst h0
      rw [show pySet ((k0, v0) :: r) k0 v = (k0, v) :: r by simp [pySet]]
      simp only [pyKeys, List.map_cons, List.mem_cons]
      tauto
    · rw [show pySet ((k0, v0) :: r) k v = (k0, v0) :: pySet r k v by simp [pySet, h0]]
      simp only [pyKeys, List.map_cons, List.mem_cons] at ih ⊢
      rw [ih]
      tauto

theorem nodup_pyKeys_pySet {α : Type} (d : List (String × α)) (k : String) (v : α)
    (h : (pyKeys d).Nodup) : (pyKeys (pySet d k v)).Nodup := by
  induction d with
  | nil => simp [pySet, pyKeys]
  | cons kv r ih =>
    obtain ⟨k0, v0⟩ := kv
    simp only [pyKeys, List.map_cons, List.nodup_cons] at h
    by_cases h0 : k0 = k
    · subst h0
      rw [show pySet ((k0, v0) :: r) k0 v = (k0, v) :: r by simp [pySet]]
      simp only [pyKeys, List.map_cons, List.nodup_cons]
      exact h
    · rw [show pySet ((k0, v0) :: r) k v = (k0, v0) :: pySet r k v by simp [pySet, h0]]
      simp only [pyKeys, List.map_cons, List.nodup_cons]
      refine ⟨fun hmem => ?_, ih h.2⟩
      rcases (mem_pyKeys_pySet r k k0 v).mp hmem with h1 | h1
      · exact h0 h1
      · exact h.1 h1

theorem pyGet_eq_none_iff {α : Type} (d : List (String × α)) (k : String) :
    pyGet d k = none ↔ k ∉ pyKeys d := by
  induction d with
  | nil => simp [pyGet, pyKeys]
  | cons kv r ih =>
    obtain ⟨k0, v0⟩ := kv
    by_cases h0 : k0 = k
    · subst h0
      simp [pyGet, pyKeys]
    · show (if k0 = k then some v0 else pyGet r k) = none ↔ _
      rw [if_neg h0]
      simp only [pyKeys, List.map_cons, List.mem_cons, not_or]
      rw [ih]
      constructor
      · intro h
        exact ⟨fun he => h0 he.symm, h⟩
      · exact And.right

theorem pyGet_some_mem {α : Type} (d : List (String × α)) (k : String) (v : α)
    (h : pyGet d k = some v) : (k, v) ∈ d := by
  induction d with
  | nil => simp [pyGet] at h
  | cons kv r ih =>
    obtain ⟨k0, v0⟩ := kv
    by_cases h0 : k0 = k
    · subst h0
      rw [show pyGet ((k0, v0) :: r) k0 = some v0 by simp [pyGet]] at h
      injection h with h2
      subst h2
      exact List.mem_cons_self _ _
    · rw [show pyGet ((k0, v0) :: r) k = pyGet r k by simp [pyGet, h0]] at h
      exact List.mem_cons_of_mem _ (ih h)

theorem pyGet_some_key_mem {α : Type} (d : List (String × α)) (k : String) (v : α)
    (h : pyGet d k = some v) : k ∈ pyKeys d := by
  have := pyGet_some_mem d k v h
  exact List.mem_map_of_mem Prod.fst this

theorem pyGet_of_mem_nodup {α : Type} :
    ∀ (d : List (String × α)) (k : String) (v : α),
    (pyKeys d).Nodup → (k, v) ∈ d → pyGet d k = some v := by
  intro d
  induction d with
  | nil =>
    intro k v _ h
    simp at h
  | cons kv r ih =>
    intro k v hd hmem
    obtain ⟨k0, v0⟩ := kv
    simp only [pyKeys, List.map_cons, List.nodup_cons] at hd
    rcases List.mem_cons.mp hmem with h | h
    · have hk : k = k0 := congrArg Prod.fst h
      have hv : v = v0 := congrArg Prod.snd h
      show (if k0 = k then some v0 else pyGet r k) = some v
      rw [if_pos hk.symm, hv]
    · have hne : ¬ k0 = k := by
        intro he
        subst he
        exact hd.1 (List.mem_map_of_mem Prod.fst h)
      show (if k0 = k then some v0 else pyGet r k) = some v
      rw [if_neg hne]
      exact ih k v hd.2 h

theorem mem_pyGet_of_nodup {α : Type} (d : List (String × α)) (k : String) (v : α)
    (hd : (pyKeys d).Nodup) : (k, v) ∈ d ↔ pyGet d k = some v :=
  ⟨pyGet_of_mem_nodup d k v hd, pyGet_some_mem d k v⟩

theorem pyGet_pyDel {α : Type} (d : List (String × α)) (k k' : String)
    (hd : (pyKeys d).Nodup) :
    pyGet (pyDel d k) k' = if k' = k then none else pyGet d k' := by
  induction d with
  | nil =>
    show (none : Option α) = if k' = k then none else none
    by_cases h : k' = k
    · rw [if_pos h]
    · rw [if_neg h]
  | cons kv r ih =>
    obtain ⟨k0, v0⟩ := kv
    simp only [pyKeys, List.map_cons, List.nodup_cons] at hd
    by_cases h0 : k0 = k
    · subst h0
      rw [show pyDel ((k0, v0) :: r) k0 = r by simp [pyDel]]
      by_cases h : k' = k0
      · subst h
        rw [if_pos rfl]
        exact (pyGet_eq_none_iff r k').mpr hd.1
      · rw [if_neg h]
        show _ = if k0 = k' then some v0 else pyGet r k'
        rw [if_neg (fun h2 : k0 = k' => h h2.symm)]
    · rw [show pyDel ((k0, v0) :: r) k = (k0, v0) :: pyDel r k by simp [pyDel, h0]]
      show (if k0 = k' then some v0 else pyGet (pyDel r k) k') = _
      rw [ih hd.2]
      show _ = if k' = k then none else if k0 = k' then some v0 else pyGet r k'
      by_cases h1 : k0 = k'
      · subst h1
        rw [if_pos rfl, if_neg (fun h2 : k0 = k => h0 h2), if_pos rfl]
      · rw [if_neg h1]
        by_cases h2 : k' = k
        · rw [if_pos h2, if_pos h2]
        · rw [if_neg h2, if_neg h2, if_neg h1]

theorem mem_pyKeys_pyDel {α : Type} (d : List (String × α)) (k k' : String)
    (h : k' ∈ pyKeys (pyDel d k)) : k' ∈ pyKeys d := by
  induction d with
  | nil => simpa [pyDel] using h
  | cons kv r ih =>
    obtain ⟨k0, v0⟩ := kv
    by_cases h0 : k0 = k
    · subst h0
      simp only [pyDel, if_pos rfl] at h
      exact List.mem_cons_of_mem _ h
    · simp only [pyDel, if_neg h0, pyKeys, List.map_cons, List.mem_cons] at h ⊢
      rcases h with h | h
      · exact Or.inl h
      · exact Or.inr (ih h)

theorem nodup_pyKeys_pyDel {α : Type} (d : List (String × α)) (k : String)
    (hd : (pyKeys d).Nodup) : (pyKeys (pyDel d k)).Nodup := by
  induction d with
  | nil => simp [pyDel, pyKeys]
  | cons kv r ih =>
    obtain ⟨k0, v0⟩ := kv
    simp only [pyKeys, List.map_cons, List.nodup_cons] at hd
    by_cases h0 : k0 = k
    · subst h0
      simpa [pyDel] using hd.2
    · simp only [pyDel, if_neg h0, pyKeys, List.map_cons, List.nodup_cons]
      exact ⟨fun hm => hd.1 (mem_pyKeys_pyDel r k k0 hm), ih hd.2⟩

theorem contains_iff_mem (l : List String) (a : String) : l.contains a = true ↔ a ∈ l := by
  induction l with
  | nil => simp
  | cons b r ih => simp [List.contains, List.elem_cons]

/-! ### Claim C6: duplicate object writes -/

/-- Claim C6: writing the same `(type, payload)` twice yields the same hash
both times, and the second write leaves the store (in particular the bytes
at the object's path) unchanged; the model is a total function, so no error
is raised on the duplicate write. -/
theorem C6_duplicate_write (H : List Nat → String) (compress : List Nat → List Nat)
    (store : List (String × List Nat)) (fmt : String) (data : List Nat) :
    (object_write H compress ((object_write H compress store fmt data).2) fmt data).1
      = (object_write H compress store fmt data).1
    ∧ (object_write H compress ((object_write H compress store fmt data).2) fmt data).2
      = (object_write H compress store fmt data).2 := by
  unfold object_write
  cases h : pyGet store (H (objectFrame fmt data)) with
  | some raw => simp [h]
  | none =>
    simp only [h]
    have h2 : pyGet (pySet store (H (objectFrame fmt data))
        (compress (objectFrame fmt data))) (H (objectFrame fmt data))
        = some (compress (objectFrame fmt data)) := by
      rw [pyGet_pySet]
      simp
    simp [h2]

/-! ### Claim C7: idempotent add -/

/-- Claim C7: adding a path that is already tracked (staged or listed in
the head commit's `[files]` trailer) leaves the staging index unchanged,
and an immediate second add of any path leaves the index equal to its state
after the first add. -/
theorem C7_idempotent_add (H : List Nat → String) (index : List (String × String))
    (headMsg : Option String) (relpath : String) (data : List Nat) :
    ((relpath ∈ pyKeys index ∨ relpath ∈ headTrailer headMsg) →
      cmd_add_file H index headMsg relpath data = index)
    ∧ cmd_add_file H (cmd_add_file H index headMsg relpath data) headMsg relpath data
      = cmd_add_file H index headMsg relpath data := by
  constructor
  · intro h
    have hc : (pyKeys index ++ headTrailer headMsg).contains relpath = true := by
      rw [contains_iff_mem, List.mem_append]
      exact h
    show (if (pyKeys index ++ headTrailer headMsg).contains relpath = true then index
      else pySet index relpath (H (objectFrame "blob" data))) = index
    rw [if_pos hc]
  · by_cases hc : (pyKeys index ++ headTrailer headMsg).contains relpath = true
    · have h1 : cmd_add_file H index headMsg relpath data = index := by
        show (if (pyKeys index ++ headTrailer headMsg).contains relpath = true then index
          else pySet index relpath (H (objectFrame "blob" data))) = index
        rw [if_pos hc]
      rw [h1, h1]
    · have h1 : cmd_add_file H index headMsg relpath data
          = pySet index relpath (H (objectFrame "blob" data)) := by
        show (if (pyKeys index ++ headTrailer headMsg).contains relpath = true then index
          else pySet index relpath (H (objectFrame "blob" data)))
          = pySet index relpath (H (objectFrame "blob" data))
        rw [if_neg hc]
      rw [h1]
      have hc2 : (pyKeys (pySet index relpath (H (objectFrame "blob" data)))
          ++ headTrailer headMsg).contains relpath = true := by
        rw [contains_iff_mem]
        exact List.mem_append_left _
          ((mem_pyKeys_pySet index relpath relpath _).mpr (Or.inl rfl))
      show (if (pyKeys (pySet index relpath (H (objectFrame "blob" data)))
            ++ headTrailer headMsg).contains relpath = true
          then pySet index relpath (H (objectFrame "blob" data))
          else pySet (pySet index relpath (H (objectFrame "blob" data))) relpath
            (H (objectFrame "blob" data)))
        = pySet index relpath (H (objectFrame "blob" data))
      rw [if_pos hc2]

/-- Witness for C7 at a concrete tracked path. -/
theorem C7_idempotent_add_witness :
    cmd_add_file (fun _ => "h") [("a.txt", "s")] none "a.txt" [] = [("a.txt", "s")] :=
  (C7_idempotent_add (fun _ => "h") [("a.txt", "s")] none "a.txt" []).1
    (Or.inl (by simp [pyKeys]))

/-! ### Claim C9: cmd_rm -/

theorem rm_fold_get (paths : List String) :
    ∀ (idx : List (String × String)) (reps : List String) (rem : Bool),
    (pyKeys idx).Nodup →
    (pyKeys (paths.foldl rmStep (idx, reps, rem)).1).Nodup ∧
    ∀ q, pyGet (paths.foldl rmStep (idx, reps, rem)).1 q
      = if q ∈ paths then none else pyGet idx q := by
  induction paths with
  | nil => intro idx reps rem h; simpa using h
  | cons p rest ih =>
    intro idx reps rem h
    by_cases hp : (pyKeys idx).contains p = true
    · have hstep : rmStep (idx, reps, rem) p = (pyDel idx p, reps, true) := by
        simp [rmStep, (contains_iff_mem (pyKeys idx) p).mp hp]
      have hnd : (pyKeys (pyDel idx p)).Nodup := nodup_pyKeys_pyDel idx p h
      obtain ⟨hnd2, hget⟩ := ih (pyDel idx p) reps true hnd
      refine ⟨by simpa [hstep] using hnd2, fun q => ?_⟩
      rw [List.foldl_cons, hstep, hget q]
      by_cases hq : q ∈ rest
      · simp [hq, List.mem_cons]
      · by_cases hqp : q = p
        · subst hqp
          simp [hq, pyGet_pyDel idx q q h]
        · simp [hq, hqp, pyGet_pyDel idx p q h]
    · have hstep : rmStep (idx, reps, rem) p = (idx, reps ++ [p], rem) := by
        simp [rmStep,
          show p ∉ pyKeys idx from fun hm => hp ((contains_iff_mem (pyKeys idx) p).mpr hm)]
      obtain ⟨hnd2, hget⟩ := ih idx (reps ++ [p]) rem h
      refine ⟨by simpa [hstep] using hnd2, fun q => ?_⟩
      rw [List.foldl_cons, hstep, hget q]
      by_cases hq : q ∈ rest
      · simp [hq]
      · by_cases hqp : q = p
        · subst hqp
          have : q ∉ pyKeys idx := by
            intro hmem
            exact hp ((contains_iff_mem _ _).mpr hmem)
          simp [hq, (pyGet_eq_none_iff idx q).mpr this]
        · simp [hq, hqp]

theorem rm_fold_reports (paths : List String) :
    ∀ (idx : List (String × String)) (reps : List String) (rem : Bool),
    (∀ r ∈ reps, r ∈ (paths.foldl rmStep (idx, reps, rem)).2.1) ∧
    ∀ p ∈ paths, p ∉ pyKeys idx → p ∈ (paths.foldl rmStep (idx, reps, rem)).2.1 := by
  induction paths with
  | nil => intro idx reps rem; simp
  | cons p rest ih =>
    intro idx reps rem
    by_cases hp : (pyKeys idx).contains p = true
    · have hstep : rmStep (idx, reps, rem) p = (pyDel idx p, reps, true) := by
        simp [rmStep, (contains_iff_mem (pyKeys idx) p).mp hp]
      obtain ⟨hmono, hrep⟩ := ih (pyDel idx p) reps true
      constructor
      · intro r hr
        rw [List.foldl_cons, hstep]
        exact hmono r hr
      · intro q hq hqn
        rw [List.foldl_cons, hstep]
        rcases List.mem_cons.mp hq with h | h
        · subst h
          exact absurd ((contains_iff_mem _ _).mp hp) hqn
        · refine hrep q h (fun hmem => hqn (mem_pyKeys_pyDel idx p q hmem))
    · have hstep : rmStep (idx, reps, rem) p = (idx, reps ++ [p], rem) := by
        simp [rmStep,
          show p ∉ pyKeys idx from fun hm => hp ((contains_iff_mem (pyKeys idx) p).mpr hm)]
      obtain ⟨hmono, hrep⟩ := ih idx (reps ++ [p]) rem
      constructor
      · intro r hr
        rw [List.foldl_cons, hstep]
        exact hmono r (List.mem_append_left _ hr)
      · intro q hq hqn
        rw [List.foldl_cons, hstep]
        rcases List.mem_cons.mp hq with h | h
        · subst h
          exact hmono q (List.mem_append_right _ (List.mem_singleton.mpr rfl))
        · exact hrep q h hqn

theorem rm_fold_removed (paths : List String) :
    ∀ (idx : List (String × String)) (reps : List String) (rem : Bool),
    (∀ p ∈ paths, p ∉ pyKeys idx) →
    (paths.foldl rmStep (idx, reps, rem)).2.2 = rem := by
  induction paths with
  | nil => intro idx reps rem _; rfl
  | cons p rest ih =>
    intro idx reps rem habs
    have hp : ¬ (pyKeys idx).contains p = true := by
      intro hc
      exact habs p (List.mem_cons_self p rest) ((contains_iff_mem _ _).mp hc)
    have hstep : rmStep (idx, reps, rem) p = (idx, reps ++ [p], rem) := by
      show (if (pyKeys idx).contains p = true then (pyDel idx p, reps, true)
        else (idx, reps ++ [p], rem)) = (idx, reps ++ [p], rem)
      rw [if_neg hp]
    rw [List.foldl_cons, hstep]
    exact ih idx (reps ++ [p]) rem (fun q hq => habs q (List.mem_cons_of_mem p hq))

/-- Claim C9: every listed path ends up absent from the staging mapping,
unlisted paths keep their binding, a path absent from the mapping is
reported as not tracked while the remaining paths are still processed, and
when no listed path was staged the removed flag stays false, so
`write_index` is never called and the persisted index file is untouched. -/
theorem C9_rm (index : List (String × String)) (paths : List String)
    (h : (pyKeys index).Nodup) :
    (∀ p ∈ paths, pyGet (cmd_rm index paths).1 p = none)
    ∧ (∀ q, q ∉ paths → pyGet (cmd_rm index paths).1 q = pyGet index q)
    ∧ (∀ p ∈ paths, p ∉ pyKeys index → p ∈ (cmd_rm index paths).2.1)
    ∧ ((∀ p ∈ paths, p ∉ pyKeys index) → (cmd_rm index paths).2.2 = false) := by
  obtain ⟨-, hget⟩ := rm_fold_get paths index [] false h
  refine ⟨fun p hp => ?_, fun q hq => ?_, ?_, ?_⟩
  · rw [show cmd_rm index paths = paths.foldl rmStep (index, [], false) from rfl, hget p]
    simp [hp]
  · rw [show cmd_rm index paths = paths.foldl rmStep (index, [], false) from rfl, hget q]
    simp [hq]
  · exact (rm_fold_reports paths index [] false).2
  · exact rm_fold_removed paths index [] false

/-- Witness for C9: removing a staged and an unstaged path. -/
theorem C9_rm_witness :
    pyGet (cmd_rm [("a.txt", "s")] ["a.txt", "b.txt"]).1 "a.txt" = none
    ∧ "b.txt" ∈ (cmd_rm [("a.txt", "s")] ["a.txt", "b.txt"]).2.1 := by
  have h := C9_rm [("a.txt", "s")] ["a.txt", "b.txt"] (by simp [pyKeys])
  exact ⟨h.1 "a.txt" (by simp), h.2.2.1 "b.txt" (by simp) (by simp [pyKeys])⟩

/-! ### cmd_commit merge lemmas -/

theorem trailFold_get (ps : List String) :
    ∀ (d0 : List (String × Option String)) (p : String),
    pyGet (ps.foldl (fun d q => pySet d q none) d0) p
      = if p ∈ ps then some none else pyGet d0 p := by
  induction ps with
  | nil => intro d0 p; simp
  | cons q rest ih =>
    intro d0 p
    rw [List.foldl_cons, ih]
    by_cases hq : p ∈ rest
    · simp [hq]
    · rw [if_neg hq, pyGet_pySet]
      by_cases hpq : p = q
      · simp [hpq]
      · simp [hpq, hq]

theorem trailFold_mem (ps : List String) :
    ∀ (d0 : List (String × Option String)) (p : String),
    p ∈ pyKeys (ps.foldl (fun d q => pySet d q none) d0) ↔ p ∈ ps ∨ p ∈ pyKeys d0 := by
  induction ps with
  | nil => intro d0 p; simp
  | cons q rest ih =>
    intro d0 p
    rw [List.foldl_cons, ih, mem_pyKeys_pySet]
    simp only [List.mem_cons]
    tauto

theorem trailFold_nodup (ps : List String) :
    ∀ (d0 : List (String × Option String)), (pyKeys d0).Nodup →
    (pyKeys (ps.foldl (fun d q => pySet d q none) d0)).Nodup := by
  induction ps with
  | nil => intro d0 h; simpa using h
  | cons q rest ih =>
    intro d0 h
    rw [List.foldl_cons]
    exact ih _ (nodup_pyKeys_pySet d0 q none h)

theorem mergeFold_get (index : List (String × String)) :
    (pyKeys index).Nodup →
    ∀ (d0 : List (String × Option String)) (p : String),
    pyGet (index.foldl (fun d kv => pySet d kv.1 (some kv.2)) d0) p
      = match pyGet index p with
        | some v => some (some v)
        | none => pyGet d0 p := by
  induction index with
  | nil => intro _ d0 p; rfl
  | cons kv rest ih =>
    intro hnd d0 p
    obtain ⟨k, v⟩ := kv
    simp only [pyKeys, List.map_cons, List.nodup_cons] at hnd
    rw [List.foldl_cons, ih hnd.2 (pySet d0 k (some v)) p]
    by_cases hpk : k = p
    · subst hpk
      rw [(pyGet_eq_none_iff rest k).mpr hnd.1,
        show pyGet ((k, v) :: rest) k = some v from by simp [pyGet]]
      show pyGet (pySet d0 k (some v)) k = some (some v)
      rw [pyGet_pySet, if_pos rfl]
    · rw [show pyGet ((k, v) :: rest) p = pyGet rest p from by simp [pyGet, hpk]]
      cases hr : pyGet rest p with
      | some w => rfl
      | none =>
        show pyGet (pySet d0 k (some v)) p = pyGet d0 p
        rw [pyGet_pySet, if_neg (fun h2 => hpk h2.symm)]

theorem mergeFold_mem (index : List (String × String)) :
    ∀ (d0 : List (String × Option String)) (p : String),
    p ∈ pyKeys (index.foldl (fun d kv => pySet d kv.1 (some kv.2)) d0)
      ↔ p ∈ pyKeys d0 ∨ p ∈ pyKeys index := by
  induction index with
  | nil => intro d0 p; simp [pyKeys]
  | cons kv rest ih =>
    intro d0 p
    obtain ⟨k, v⟩ := kv
    rw [List.foldl_cons, ih (pySet d0 k (some v)) p, mem_pyKeys_pySet]
    simp only [pyKeys, List.map_cons, List.mem_cons]
    tauto

theorem mergeFold_nodup (index : List (String × String)) :
    ∀ (d0 : List (String × Option String)), (pyKeys d0).Nodup →
    (pyKeys (index.foldl (fun d kv => pySet d kv.1 (some kv.2)) d0)).Nodup := by
  induction index with
  | nil => intro d0 h; simpa using h
  | cons kv rest ih =>
    intro d0 h
    rw [List.foldl_cons]
    exact ih _ (nodup_pyKeys_pySet d0 kv.1 (some kv.2) h)

theorem delete_loop_id {α : Type} (cond : String → Bool) :
    ∀ (ks : List String) (d : List (String × α)), (∀ k ∈ ks, cond k = false) →
    ks.foldl (fun d2 k => if cond k then pyDel d2 k else d2) d = d := by
  intro ks
  induction ks with
  | nil => intro d _; rfl
  | cons k rest ih =>
    intro d h
    rw [List.foldl_cons, if_neg (by rw [h k (List.mem_cons_self k rest)]; simp)]
    exact ih d (fun q hq => h q (List.mem_cons_of_mem k hq))

/-- The deletion loop of `cmd_commit` never fires: every key of the merged
dict comes from the staging index or from `prev_tracked`. -/
theorem mergedOf_eq (index : List (String × String)) (head : Option (String × String)) :
    mergedOf index head
      = index.foldl (fun d kv => pySet d kv.1 (some kv.2)) (prevTrackedOf head) := by
  unfold mergedOf
  apply delete_loop_id
  intro k hk
  rcases (mergeFold_mem index (prevTrackedOf head) k).mp hk with h | h
  · have : (pyKeys (prevTrackedOf head)).contains k = true := (contains_iff_mem _ _).mpr h
    simp [this, h]
  · have : (pyKeys index).contains k = true := (contains_iff_mem _ _).mpr h
    simp [this, h]

theorem prevTrackedOf_get (head : Option (String × String)) (p : String) :
    pyGet (prevTrackedOf head) p
      = if p ∈ headTrailer (head.map Prod.snd) then some none else none := by
  cases head with
  | none => simp [prevTrackedOf, headTrailer, pyGet]
  | some hm =>
    show pyGet ((parseTrailerPaths hm.2).foldl (fun d p => pySet d p none) []) p = _
    rw [trailFold_get]
    rfl

theorem prevTrackedOf_mem (head : Option (String × String)) (p : String) :
    p ∈ pyKeys (prevTrackedOf head) ↔ p ∈ headTrailer (head.map Prod.snd) := by
  cases head with
  | none => simp [prevTrackedOf, headTrailer, pyKeys]
  | some hm =>
    show p ∈ pyKeys ((parseTrailerPaths hm.2).foldl (fun d p => pySet d p none) []) ↔ _
    rw [trailFold_mem]
    simp [headTrailer, pyKeys]

theorem prevTrackedOf_nodup (head : Option (String × String)) :
    (pyKeys (prevTrackedOf head)).Nodup := by
  cases head with
  | none => simp [prevTrackedOf, pyKeys]
  | some hm =>
    exact trailFold_nodup (parseTrailerPaths hm.2) [] (by simp [pyKeys])

theorem mergedOf_get (index : List (String × String)) (head : Option (String × String))
    (p : String) (hnd : (pyKeys index).Nodup) :
    pyGet (mergedOf index head) p
      = match pyGet index p with
        | some v => some (some v)
        | none => if p ∈ headTrailer (head.map Prod.snd) then some none else none := by
  rw [mergedOf_eq, mergeFold_get index hnd, prevTrackedOf_get]

theorem mergedOf_mem (index : List (String × String)) (head : Option (String × String))
    (p : String) :
    p ∈ pyKeys (mergedOf index head)
      ↔ p ∈ pyKeys index ∨ p ∈ headTrailer (head.map Prod.snd) := by
  rw [mergedOf_eq, mergeFold_mem, prevTrackedOf_mem]
  tauto

theorem mergedOf_nodup (index : List (String × String)) (head : Option (String × String)) :
    (pyKeys (mergedOf index head)).Nodup := by
  rw [mergedOf_eq]
  exact mergeFold_nodup index _ (prevTrackedOf_nodup head)

theorem mergedOf_nil_iff (index : List (String × String)) (head : Option (String × String)) :
    mergedOf index head = [] ↔ index = [] ∧ headTrailer (head.map Prod.snd) = [] := by
  constructor
  · intro h
    constructor
    · cases hidx : index with
      | nil => rfl
      | cons kv rest =>
        exfalso
        have hm : kv.1 ∈ pyKeys (mergedOf index head) :=
          (mergedOf_mem index head kv.1).mpr
            (Or.inl (by rw [hidx]; exact List.mem_map_of_mem Prod.fst (List.mem_cons_self _ _)))
        rw [h] at hm
        simp [pyKeys] at hm
    · cases htr : headTrailer (head.map Prod.snd) with
      | nil => rfl
      | cons q qs =>
        exfalso
        have hm : q ∈ pyKeys (mergedOf index head) :=
          (mergedOf_mem index head q).mpr (Or.inr (by rw [htr]; exact List.mem_cons_self _ _))
        rw [h] at hm
        simp [pyKeys] at hm
  · rintro ⟨h1, h2⟩
    rw [mergedOf_eq, h1, List.foldl_nil]
    cases head with
    | none => rfl
    | some hm =>
      have h3 : parseTrailerPaths hm.2 = [] := by simpa [headTrailer] using h2
      simp [prevTrackedOf, h3]

/-! ### Claim C1: commit refusal condition -/

/-- Claim C1 (amended): `cmd_commit` refuses with NothingToCommit exactly
when the merged tracked set (staged paths together with the parent
trailer's paths) is empty — equivalently, iff the StagingIndex is empty
AND the parent's `[files]` trailer is empty.  The refusal is the early
return taken before any object write, ref update or index rewrite.  The
original claim's refusal condition — emptiness of the resolved entry set —
is refuted by `C1_counterexample`. -/
theorem C1_commit_refusal (index : List (String × String)) (head : Option (String × String))
    (msg0 : String) :
    cmd_commit index head msg0 = .nothingToCommit
      ↔ (index = [] ∧ headTrailer (head.map Prod.snd) = []) := by
  rw [← mergedOf_nil_iff index head]
  simp only [cmd_commit]
  by_cases he : (mergedOf index head).isEmpty = true
  · simp [he, List.isEmpty_iff.mp he]
  · have hne : ¬ mergedOf index head = [] := fun h => he (List.isEmpty_iff.mpr h)
    simp [he, hne]

/-- Counterexample to claim C1 as stated: with an empty StagingIndex but a
non-empty parent `[files]` trailer, every path's hash is unresolved, so the
set of tree entries that would be written is empty — yet the commit is not
refused: it proceeds, committing a tree with zero entries and updating the
ref. -/
theorem C1_counterexample :
    cmd_commit [] (some ("p", "m\n\n[files]\na.txt")) "x"
      = .committed [] ["a.txt"] "x\n\n[files]\na.txt" := by
  decide

/-! ### String comparison bridge lemmas -/

theorem charLt_iff (a b : Char) : a.toNat < b.toNat ↔ a < b := by
  rw [Char.lt_iff_val_lt_val, UInt32.lt_def, BitVec.lt_def]
  rfl

theorem strLtL_iff : ∀ as bs : List Char, strLtL as bs = true ↔ as < bs := by
  intro as
  induction as with
  | nil =>
    intro bs
    cases bs with
    | nil =>
      simp only [strLtL]
      constructor
      · intro h
        exact Bool.noConfusion h
      · intro h
        cases h
    | cons b bs =>
      simp only [strLtL]
      constructor
      · intro _
        exact List.Lex.nil
      · intro _
        trivial
  | cons a as ih =>
    intro bs
    cases bs with
    | nil =>
      simp only [strLtL]
      constructor
      · intro h
        exact Bool.noConfusion h
      · intro h
        cases h
    | cons b bs =>
      by_cases h1 : a.toNat < b.toNat
      · simp only [strLtL, if_pos h1]
        constructor
        · intro _
          exact List.Lex.rel ((charLt_iff a b).mp h1)
        · intro _
          trivial
      · by_cases h2 : b.toNat < a.toNat
        · simp only [strLtL, if_neg h1, if_pos h2]
          constructor
          · intro h
            exact Bool.noConfusion h
          · intro h
            cases h with
            | cons htl => exact absurd h2 (lt_irrefl _)
            | rel hab => exact absurd ((charLt_iff a b).mpr hab) h1
        · simp only [strLtL, if_neg h1, if_neg h2]
          rw [ih bs]
          have hna : ¬ a < b := fun hc => h1 ((charLt_iff a b).mpr hc)
          have hnb : ¬ b < a := fun hc => h2 ((charLt_iff b a).mpr hc)
          have hab : a = b := le_antisymm (not_lt.mp hnb) (not_lt.mp hna)
          subst hab
          exact Iff.symm List.Lex.cons_iff

theorem pyStrLt_iff (a b : String) : pyStrLt a b = true ↔ a < b := by
  rw [show pyStrLt a b = strLtL a.data b.data from rfl, strLtL_iff]
  exact Iff.symm String.lt_iff_toList_lt

theorem pyStrLe_iff (a b : String) : pyStrLe a b = true ↔ a ≤ b := by
  constructor
  · intro h
    show ¬ b < a
    intro hba
    have hC : strLtL b.data a.data = true := (pyStrLt_iff b a).mpr hba
    rw [show pyStrLe a b = !strLtL b.data a.data from rfl, hC] at h
    exact Bool.noConfusion h
  · intro h
    show (!strLtL b.data a.data) = true
    cases hC : strLtL b.data a.data
    · rfl
    · exact absurd ((pyStrLt_iff b a).mp hC) h

/-! ### Claim C3: commit tree contents -/

theorem pairwise_filterMap_out {α β : Type} (R : α → α → Prop) (S : β → β → Prop)
    (f : α → Option β)
    (hf : ∀ a b, R a b → ∀ c, f a = some c → ∀ d, f b = some d → S c d) :
    ∀ l : List α, l.Pairwise R → (l.filterMap f).Pairwise S := by
  intro l
  induction l with
  | nil => intro _; simp
  | cons a rest ih =>
    intro hp
    rw [List.filterMap_cons]
    cases hfa : f a with
    | none => exact ih hp.of_cons
    | some c =>
      refine List.Pairwise.cons ?_ (ih hp.of_cons)
      intro d hd
      obtain ⟨b, hb, hfb⟩ := List.mem_filterMap.mp hd
      exact hf a b (List.rel_of_pairwise_cons hp hb) c hfa d hfb

/-- Claim C3: a successful commit's tree entries are exactly the staged
paths with their staged hashes (parent-trailer-only paths, whose hash is
unresolved, are excluded), sorted strictly by path, each with mode
`100644`; the commit message carries a `[files]` trailer listing the
merged tracked set — parent trailer paths union staged paths — one path
per line, sorted. -/
theorem C3_commit_tree (index : List (String × String)) (head : Option (String × String))
    (msg0 : String) (entries : List (String × String × String)) (tracked : List String)
    (msg : String) (hnd : (pyKeys index).Nodup)
    (h : cmd_commit index head msg0 = .committed entries tracked msg) :
    entries.Pairwise (fun a b => a.2.1 < b.2.1)
    ∧ (∀ m p sha, (m, p, sha) ∈ entries ↔ m = "100644" ∧ pyGet index p = some sha)
    ∧ tracked.Pairwise (fun a b => a < b)
    ∧ (∀ p, p ∈ tracked ↔ p ∈ pyKeys index ∨ p ∈ headTrailer (head.map Prod.snd))
    ∧ msg = msg0 ++ "\n\n[files]\n" ++ String.intercalate "\n" tracked := by
  have he : ¬ (mergedOf index head).isEmpty = true := by
    intro he
    have h0 : cmd_commit index head msg0 = .nothingToCommit := by
      simp only [cmd_commit]
      rw [if_pos he]
    rw [h0] at h
    exact CommitOutcome.noConfusion h
  have h2 : CommitOutcome.committed
      ((List.insertionSort keyLe (mergedOf index head)).filterMap
        (fun kv => match kv.2 with
          | none => none
          | some sha => some (("100644" : String), kv.1, sha)))
      (List.insertionSort strLe (pyKeys (mergedOf index head)))
      (msg0 ++ "\n\n[files]\n"
        ++ String.intercalate "\n" (List.insertionSort strLe (pyKeys (mergedOf index head))))
      = .committed entries tracked msg := by
    rw [← h]
    simp only [cmd_commit]
    rw [if_neg he]
  injection h2 with hE hT hM
  have hperm := List.perm_insertionSort keyLe (mergedOf index head)
  have hpermK := List.perm_insertionSort strLe (pyKeys (mergedOf index head))
  have hndM : (pyKeys (mergedOf index head)).Nodup := mergedOf_nodup index head
  have hndS : (pyKeys (List.insertionSort keyLe (mergedOf index head))).Nodup := by
    refine ((hperm.map Prod.fst).nodup_iff).mpr hndM
  have instTot : IsTotal (String × Option String) keyLe := ⟨fun a b => by
    rcases le_total a.1 b.1 with hle | hle
    · exact Or.inl ((pyStrLe_iff a.1 b.1).mpr hle)
    · exact Or.inr ((pyStrLe_iff b.1 a.1).mpr hle)⟩
  have instTrans : IsTrans (String × Option String) keyLe := ⟨fun x y z hxy hyz =>
    (pyStrLe_iff x.1 z.1).mpr
      (le_trans ((pyStrLe_iff x.1 y.1).mp hxy) ((pyStrLe_iff y.1 z.1).mp hyz))⟩
  have hsorted := @List.sorted_insertionSort _ keyLe _ instTot instTrans (mergedOf index head)
  have hpairLt : (List.insertionSort keyLe (mergedOf index head)).Pairwise
      (fun a b => a.1 < b.1) := by
    have hne : (List.insertionSort keyLe (mergedOf index head)).Pairwise
        (fun a b => a.1 ≠ b.1) := by
      rw [← List.pairwise_map (f := Prod.fst)]
      exact hndS
    exact (hsorted.and hne).imp
      (fun hab => lt_of_le_of_ne ((pyStrLe_iff _ _).mp hab.1) hab.2)
  refine ⟨?_, ?_, ?_, ?_, ?_⟩
  · rw [← hE]
    refine pairwise_filterMap_out _ _ _ ?_ _ hpairLt
    intro a b hab c hc d hd
    obtain ⟨ka, va⟩ := a
    obtain ⟨kb, vb⟩ := b
    cases va with
    | none => exact absurd hc (by simp)
    | some sa =>
      cases vb with
      | none => exact absurd hd (by simp)
      | some sb =>
        simp only [Option.some.injEq] at hc hd
        rw [← hc, ← hd]
        exact hab
  · intro m p sha
    rw [← hE]
    rw [List.mem_filterMap]
    constructor
    · rintro ⟨kv, hkv, hf⟩
      obtain ⟨kp, vo⟩ := kv
      cases vo with
      | none => exact absurd hf (by simp)
      | some s =>
        simp only [Option.some.injEq] at hf
        have hm : m = "100644" := (congrArg (fun t => t.1) hf).symm
        have hp2 : kp = p := congrArg (fun t => t.2.1) hf
        have hs : s = sha := congrArg (fun t => t.2.2) hf
        subst hp2
        subst hs
        refine ⟨hm, ?_⟩
        have hmem : (kp, some s) ∈ mergedOf index head := hperm.mem_iff.mp hkv
        have hget : pyGet (mergedOf index head) kp = some (some s) :=
          pyGet_of_mem_nodup _ _ _ hndM hmem
        rw [mergedOf_get index head kp hnd] at hget
        cases hidx : pyGet index kp with
        | none =>
          rw [hidx] at hget
          by_cases ht : kp ∈ headTrailer (head.map Prod.snd)
          · rw [if_pos ht] at hget
            exact absurd (Option.some.inj hget) (by simp)
          · rw [if_neg ht] at hget
            exact Option.noConfusion hget
        | some w =>
          rw [hidx] at hget
          have hw : w = s := Option.some.inj (Option.some.inj hget)
          exact congrArg some hw
    · rintro ⟨hm, hget⟩
      refine ⟨(p, some sha), ?_, ?_⟩
      · apply hperm.mem_iff.mpr
        apply (mem_pyGet_of_nodup _ _ _ hndM).mpr
        rw [mergedOf_get index head p hnd, hget]
      · rw [hm]
  · rw [← hT]
    have instTotK : IsTotal String strLe := ⟨fun a b => by
      rcases le_total a b with hle | hle
      · exact Or.inl ((pyStrLe_iff a b).mpr hle)
      · exact Or.inr ((pyStrLe_iff b a).mpr hle)⟩
    have instTransK : IsTrans String strLe := ⟨fun x y z hxy hyz =>
      (pyStrLe_iff x z).mpr
        (le_trans ((pyStrLe_iff x y).mp hxy) ((pyStrLe_iff y z).mp hyz))⟩
    have hsortedK := @List.sorted_insertionSort _ strLe _ instTotK instTransK
      (pyKeys (mergedOf index head))
    have hndK : (List.insertionSort strLe (pyKeys (mergedOf index head))).Nodup :=
      hpermK.nodup_iff.mpr hndM
    exact (hsortedK.and hndK).imp
      (fun hab => lt_of_le_of_ne ((pyStrLe_iff _ _).mp hab.1) hab.2)
  · intro p
    rw [← hT]
    rw [hpermK.mem_iff]
    exact mergedOf_mem index head p
  · rw [← hT]
    exact hM.symm

/-- Witness for C3 at a concrete commit with one staged path overlapping
nothing and a parent trailer path. -/
theorem C3_commit_tree_witness :
    ("100644", "a.txt", "s1")
      ∈ ([("100644", "a.txt", "s1"), ("100644", "b.txt", "s2")]
          : List (String × String × String)) :=
  ((C3_commit_tree [("b.txt", "s2"), ("a.txt", "s1")] (some ("h", "m\n\n[files]\nc.txt")) "x"
      [("100644", "a.txt", "s1"), ("100644", "b.txt", "s2")] ["a.txt", "b.txt", "c.txt"]
      "x\n\n[files]\na.txt\nb.txt\nc.txt" (by simp [pyKeys]) (by rfl)).2.1
    "100644" "a.txt" "s1").mpr ⟨rfl, by rfl⟩

/-! ### Claim C8: history walk -/

theorem contains_eq_false_iff (l : List String) (a : String) :
    l.contains a = false ↔ a ∉ l := by
  constructor
  · intro h hm
    rw [(contains_iff_mem l a).mpr hm] at h
    exact Bool.noConfusion h
  · intro h
    cases hc : l.contains a with
    | false => rfl
    | true => exact absurd ((contains_iff_mem l a).mp hc) h

theorem logLoop_step (store : List (String × GitCommit)) (fuel : Nat) (sha : String)
    (seen : List String) (acc : List (String × GitCommit)) (c : GitCommit)
    (hne : sha ≠ "") (hs : seen.contains sha = false) (hget : pyGet store sha = some c) :
    logLoop store (fuel + 1) (some sha) seen acc
      = logLoop store fuel c.parent (sha :: seen) (acc ++ [(sha, c)]) := by
  simp only [logLoop, hne, hs, hget]
  simp

theorem logLoop_end_seen (store : List (String × GitCommit)) (fuel : Nat) (sha : String)
    (seen : List String) (acc : List (String × GitCommit))
    (hne : sha ≠ "") (hs : seen.contains sha = true) :
    logLoop store (fuel + 1) (some sha) seen acc = (acc, .ended) := by
  simp only [logLoop, hne, hs]
  simp

theorem logLoop_broken (store : List (String × GitCommit)) (fuel : Nat) (sha : String)
    (seen : List String) (acc : List (String × GitCommit))
    (hne : sha ≠ "") (hs : seen.contains sha = false) (hget : pyGet store sha = none) :
    logLoop store (fuel + 1) (some sha) seen acc = (acc, .broken sha) := by
  simp only [logLoop, hne, hs, hget]
  simp

theorem logLoop_chain (store : List (String × GitCommit)) :
    ∀ (l : List (String × GitCommit)) (t : Option String) (fuel : Nat)
    (seen : List String) (acc : List (String × GitCommit)),
    chainB store l t = true →
    (∀ x ∈ l, seen.contains x.1 = false) →
    logLoop store (fuel + l.length)
      (match l with | [] => t | x :: _ => some x.1) seen acc
      = logLoop store fuel t ((l.map Prod.fst).reverse ++ seen) (acc ++ l) := by
  intro l
  induction l with
  | nil =>
    intro t fuel seen acc _ _
    simp
  | cons hd tl ih =>
    intro t fuel seen acc hc hf
    obtain ⟨h, c⟩ := hd
    simp only [chainB, Bool.and_eq_true, decide_eq_true_eq] at hc
    obtain ⟨⟨⟨⟨hne, hnd⟩, hget⟩, hpar⟩, hrest⟩ := hc
    have hlen : fuel + ((h, c) :: tl).length = (fuel + tl.length) + 1 := by
      simp [List.length_cons]
      omega
    rw [hlen]
    rw [logLoop_step store (fuel + tl.length) h seen acc c hne
      (hf (h, c) (List.mem_cons_self _ _)) hget]
    have hf2 : ∀ x ∈ tl, (h :: seen).contains x.1 = false := by
      intro x hx
      apply (contains_eq_false_iff _ _).mpr
      intro hm
      rcases List.mem_cons.mp hm with he | he
      · rw [Bool.not_eq_true'] at hnd
        exact absurd (he ▸ List.mem_map_of_mem Prod.fst hx)
          ((contains_eq_false_iff _ _).mp hnd)
      · exact absurd he ((contains_eq_false_iff _ _).mp (hf x (List.mem_cons_of_mem _ hx)))
    have hstep := ih t fuel (h :: seen) (acc ++ [(h, c)]) hrest hf2
    rw [← hpar] at hstep
    rw [hstep]
    simp [List.append_assoc]

theorem chainB_nodup (store : List (String × GitCommit)) :
    ∀ (l : List (String × GitCommit)) (t : Option String), chainB store l t = true →
    (l.map Prod.fst).Nodup := by
  intro l
  induction l with
  | nil => intro t _; simp
  | cons hd tl ih =>
    intro t hc
    obtain ⟨h, c⟩ := hd
    simp only [chainB, Bool.and_eq_true, decide_eq_true_eq] at hc
    obtain ⟨⟨⟨⟨hne, hnd⟩, hget⟩, hpar⟩, hrest⟩ := hc
    rw [Bool.not_eq_true'] at hnd
    simp only [List.map_cons, List.nodup_cons]
    exact ⟨(contains_eq_false_iff _ _).mp hnd, ih t hrest⟩

theorem chainB_keys (store : List (String × GitCommit)) :
    ∀ (l : List (String × GitCommit)) (t : Option String), chainB store l t = true →
    ∀ x ∈ l, x.1 ∈ pyKeys store := by
  intro l
  induction l with
  | nil => intro t _ x hx; simp at hx
  | cons hd tl ih =>
    intro t hc x hx
    obtain ⟨h, c⟩ := hd
    simp only [chainB, Bool.and_eq_true, decide_eq_true_eq] at hc
    obtain ⟨⟨⟨⟨hne, hnd⟩, hget⟩, hpar⟩, hrest⟩ := hc
    rcases List.mem_cons.mp hx with he | he
    · rw [he]
      exact pyGet_some_key_mem store h c hget
    · exact ih t hrest x he

theorem chainB_ne_empty (store : List (String × GitCommit)) :
    ∀ (l : List (String × GitCommit)) (t : Option String), chainB store l t = true →
    ∀ x ∈ l, x.1 ≠ "" := by
  intro l
  induction l with
  | nil => intro t _ x hx; simp at hx
  | cons hd tl ih =>
    intro t hc x hx
    obtain ⟨h, c⟩ := hd
    simp only [chainB, Bool.and_eq_true, decide_eq_true_eq] at hc
    obtain ⟨⟨⟨⟨hne, hnd⟩, hget⟩, hpar⟩, hrest⟩ := hc
    rcases List.mem_cons.mp hx with he | he
    · rw [he]
      exact hne
    · exact ih t hrest x he

theorem nodup_subset_length {l1 l2 : List String} (hnd : l1.Nodup)
    (hsub : ∀ x ∈ l1, x ∈ l2) : l1.length ≤ l2.length := by
  calc l1.length = l1.toFinset.card := (List.toFinset_card_of_nodup hnd).symm
    _ ≤ l2.toFinset.card := by
        apply Finset.card_le_card
        intro a ha
        exact List.mem_toFinset.mpr (hsub a (List.mem_toFinset.mp ha))
    _ ≤ l2.length := List.toFinset_card_le l2

theorem logLoop_no_timeout (store : List (String × GitCommit)) :
    ∀ (fuel : Nat) (sha? : Option String) (seen : List String)
    (acc : List (String × GitCommit)),
    ((store.map Prod.fst).toFinset \ seen.toFinset).card < fuel →
    (logLoop store fuel sha? seen acc).2 ≠ .timeout := by
  intro fuel
  induction fuel with
  | zero =>
    intro sha? seen acc h
    omega
  | succ f ih =>
    intro sha? seen acc hcard
    cases sha? with
    | none => simp [logLoop]
    | some sha =>
      by_cases h1 : sha = ""
      · simp [logLoop, h1]
      · by_cases h2 : seen.contains sha = true
        · rw [logLoop_end_seen store f sha seen acc h1 h2]
          simp
        · have h2f : seen.contains sha = false := by
            cases hc : seen.contains sha with
            | false => rfl
            | true => exact absurd hc h2
          cases hget : pyGet store sha with
          | none =>
            rw [logLoop_broken store f sha seen acc h1 h2f hget]
            simp
          | some c =>
            rw [logLoop_step store f sha seen acc c h1 h2f hget]
            apply ih
            have hmem : sha ∈ store.map Prod.fst := pyGet_some_key_mem store sha c hget
            have hnot : sha ∉ seen := (contains_eq_false_iff _ _).mp h2f
            have hmem2 : sha ∈ (store.map Prod.fst).toFinset \ seen.toFinset :=
              Finset.mem_sdiff.mpr
                ⟨List.mem_toFinset.mpr hmem, fun hc => hnot (List.mem_toFinset.mp hc)⟩
            have hpos : 0 < ((store.map Prod.fst).toFinset \ seen.toFinset).card :=
              Finset.card_pos.mpr ⟨sha, hmem2⟩
            have heq : (store.map Prod.fst).toFinset \ (sha :: seen).toFinset
                = ((store.map Prod.fst).toFinset \ seen.toFinset).erase sha := by
              rw [List.toFinset_cons, Finset.sdiff_insert]
            rw [heq, Finset.card_erase_of_mem hmem2]
            omega

/-- Claim C8: starting the history walk from the head of an N-commit chain
whose last parent is absent visits exactly those N commits, head first,
root last, and ends normally; when the chain's last parent is a hash
already visited in the walk, it also ends normally after the same visits
(cycle guard); when the last parent is a fresh hash whose read fails, the
walk reports that hash as broken and stops after visiting the chain; and
the walk never exhausts its fuel: it terminates for every store and start
hash. -/
theorem C8_history_walk (store : List (String × GitCommit)) :
    (∀ (hd : String × GitCommit) (tl : List (String × GitCommit)) (t : Option String),
      chainB store (hd :: tl) t = true →
      ((t = none → cmd_log store hd.1 = (hd :: tl, LogOutcome.ended))
      ∧ (∀ hb, t = some hb → hb ∈ (hd :: tl).map Prod.fst →
          cmd_log store hd.1 = (hd :: tl, LogOutcome.ended))
      ∧ (∀ hb, t = some hb → hb ≠ "" → hb ∉ (hd :: tl).map Prod.fst →
          pyGet store hb = none →
          cmd_log store hd.1 = (hd :: tl, LogOutcome.broken hb))))
    ∧ ∀ start, (cmd_log store start).2 ≠ LogOutcome.timeout := by
  constructor
  · intro hd tl t hc
    have hlen : (hd :: tl).length ≤ store.length := by
      have := nodup_subset_length (chainB_nodup store (hd :: tl) t hc)
        (fun x hx => by
          obtain ⟨y, hy, he⟩ := List.mem_map.mp hx
          exact he ▸ chainB_keys store (hd :: tl) t hc y hy)
      simpa [pyKeys] using this
    obtain ⟨fuel, hfuel, hfuel1⟩ : ∃ fuel, store.length + 1 = fuel + (hd :: tl).length
        ∧ 1 ≤ fuel := by
      refine ⟨store.length + 1 - (hd :: tl).length, by omega, by omega⟩
    obtain ⟨f, hf⟩ : ∃ f, fuel = f + 1 := ⟨fuel - 1, by omega⟩
    have htrans := logLoop_chain store (hd :: tl) t fuel [] [] hc (by
      intro x _
      rfl)
    have htrans2 : logLoop store (fuel + (hd :: tl).length) (some hd.1) [] []
        = logLoop store fuel t (((hd :: tl).map Prod.fst).reverse ++ []) ([] ++ (hd :: tl)) :=
      htrans
    have hlog : cmd_log store hd.1
        = logLoop store fuel t (((hd :: tl).map Prod.fst).reverse ++ []) ([] ++ (hd :: tl)) := by
      rw [show cmd_log store hd.1 = logLoop store (store.length + 1) (some hd.1) [] [] from rfl,
        hfuel, htrans2]
    refine ⟨?_, ?_, ?_⟩
    · intro ht
      rw [hlog, ht, hf]
      rfl
    · intro hb ht hmem
      obtain ⟨y, hy, he⟩ := List.mem_map.mp hmem
      have hbne : hb ≠ "" := he ▸ chainB_ne_empty store (hd :: tl) t hc y hy
      rw [hlog, ht, hf]
      rw [logLoop_end_seen store f hb _ _ hbne
        (by
          apply (contains_iff_mem _ _).mpr
          rw [List.append_nil]
          exact List.mem_reverse.mpr hmem)]
      simp
    · intro hb ht hbne hmem hget
      rw [hlog, ht, hf]
      rw [logLoop_broken store f hb _ _ hbne
        (by
          apply (contains_eq_false_iff _ _).mpr
          rw [List.append_nil]
          exact fun hm => hmem (List.mem_reverse.mp hm)) hget]
      simp
  · intro start
    apply logLoop_no_timeout
    calc ((store.map Prod.fst).toFinset \ ([] : List String).toFinset).card
        ≤ (store.map Prod.fst).toFinset.card := by
          apply Finset.card_le_card
          intro a ha
          exact (Finset.mem_sdiff.mp ha).1
      _ ≤ (store.map Prod.fst).length := List.toFinset_card_le _
      _ < store.length + 1 := by simp

/-! ### UTF-8 codec correctness -/

theorem toNat_charOfNat (n : Nat) (h : n < 55296 ∨ (57344 ≤ n ∧ n < 1114112)) :
    (Char.ofNat n).toNat = n := by
  have hv : n.isValidChar := by
    rcases h with h | h
    · exact Or.inl h
    · exact Or.inr ⟨h.1, h.2⟩
  rw [Char.ofNat, dif_pos hv]
  rfl

theorem char_valid_ranges (c : Char) :
    c.toNat < 55296 ∨ (57344 ≤ c.toNat ∧ c.toNat < 1114112) := by
  rcases c.valid with h | h
  · exact Or.inl h
  · exact Or.inr h

theorem decode_step (c : Char) (rest : List Nat) (f : Nat) :
    decodeAuxF (f + 1) (utf8EncodeChar c ++ rest)
      = (decodeAuxF f rest).map (fun cs => c :: cs) := by
  have hval := char_valid_ranges c
  by_cases h1 : c.toNat < 128
  · have henc : utf8EncodeChar c = [c.toNat] := by
      unfold utf8EncodeChar
      rw [if_pos h1]
    have hone : decodeOne c.toNat rest = some (c.toNat, rest) := by
      unfold decodeOne
      rw [if_pos h1]
    rw [henc, List.cons_append, List.nil_append, decodeAuxF, hone]
    show (decodeAuxF f rest).map (fun cs => Char.ofNat c.toNat :: cs) = _
    rw [Char.ofNat_toNat]
  · by_cases h2 : c.toNat < 2048
    · have henc : utf8EncodeChar c = [192 + c.toNat / 64, 128 + c.toNat % 64] := by
        unfold utf8EncodeChar
        rw [if_neg h1, if_pos h2]
      have hcont : isCont (128 + c.toNat % 64) = true := by
        simp only [isCont, Bool.and_eq_true, decide_eq_true_eq]
        omega
      have hone : decodeOne (192 + c.toNat / 64) ((128 + c.toNat % 64) :: rest)
          = some (c.toNat, rest) := by
        unfold decodeOne
        rw [if_neg (by omega), if_neg (by omega), if_pos (by omega)]
        show (if isCont (128 + c.toNat % 64) = true then
            some ((192 + c.toNat / 64 - 192) * 64 + (128 + c.toNat % 64 - 128), rest)
          else none) = some (c.toNat, rest)
        rw [if_pos hcont,
          show (192 + c.toNat / 64 - 192) * 64 + (128 + c.toNat % 64 - 128) = c.toNat from by
            omega]
      rw [henc, List.cons_append, List.cons_append, List.nil_append, decodeAuxF, hone]
      show (decodeAuxF f rest).map (fun cs => Char.ofNat c.toNat :: cs) = _
      rw [Char.ofNat_toNat]
    · by_cases h3 : c.toNat < 65536
      · have henc : utf8EncodeChar c
            = [224 + c.toNat / 4096, 128 + c.toNat / 64 % 64, 128 + c.toNat % 64] := by
          unfold utf8EncodeChar
          rw [if_neg h1, if_neg h2, if_pos h3]
        have hguard : (isCont (128 + c.toNat / 64 % 64) && isCont (128 + c.toNat % 64) &&
            !(224 + c.toNat / 4096 == 224 && decide (128 + c.toNat / 64 % 64 < 160)) &&
            !(224 + c.toNat / 4096 == 237 && decide (160 ≤ 128 + c.toNat / 64 % 64)))
            = true := by
          simp only [isCont, Bool.and_eq_true, Bool.not_eq_true', Bool.and_eq_false_iff,
            decide_eq_true_eq, decide_eq_false_iff_not, beq_iff_eq, beq_eq_false_iff_ne]
          omega
        have hone : decodeOne (224 + c.toNat / 4096)
            ((128 + c.toNat / 64 % 64) :: (128 + c.toNat % 64) :: rest)
            = some (c.toNat, rest) := by
          unfold decodeOne
          rw [if_neg (by omega), if_neg (by omega), if_neg (by omega), if_pos (by omega)]
          show (if (isCont (128 + c.toNat / 64 % 64) && isCont (128 + c.toNat % 64) &&
              !(224 + c.toNat / 4096 == 224 && decide (128 + c.toNat / 64 % 64 < 160)) &&
              !(224 + c.toNat / 4096 == 237 && decide (160 ≤ 128 + c.toNat / 64 % 64))) = true
            then some ((224 + c.toNat / 4096 - 224) * 4096
              + (128 + c.toNat / 64 % 64 - 128) * 64 + (128 + c.toNat % 64 - 128), rest)
            else none) = some (c.toNat, rest)
          rw [if_pos hguard,
            show (224 + c.toNat / 4096 - 224) * 4096 + (128 + c.toNat / 64 % 64 - 128) * 64
              + (128 + c.toNat % 64 - 128) = c.toNat from by omega]
        rw [henc, List.cons_append, List.cons_append, List.cons_append, List.nil_append,
          decodeAuxF, hone]
        show (decodeAuxF f rest).map (fun cs => Char.ofNat c.toNat :: cs) = _
        rw [Char.ofNat_toNat]
      · have henc : utf8EncodeChar c
            = [240 + c.toNat / 262144, 128 + c.toNat / 4096 % 64, 128 + c.toNat / 64 % 64,
               128 + c.toNat % 64] := by
          unfold utf8EncodeChar
          rw [if_neg h1, if_neg h2, if_neg h3]
        have hguard : (isCont (128 + c.toNat / 4096 % 64) && isCont (128 + c.toNat / 64 % 64)
            && isCont (128 + c.toNat % 64) &&
            !(240 + c.toNat / 262144 == 240 && decide (128 + c.toNat / 4096 % 64 < 144)) &&
            !(240 + c.toNat / 262144 == 244 && decide (144 ≤ 128 + c.toNat / 4096 % 64)))
            = true := by
          simp only [isCont, Bool.and_eq_true, Bool.not_eq_true', Bool.and_eq_false_iff,
            decide_eq_true_eq, decide_eq_false_iff_not, beq_iff_eq, beq_eq_false_iff_ne]
          omega
        have hone : decodeOne (240 + c.toNat / 262144)
            ((128 + c.toNat / 4096 % 64) :: (128 + c.toNat / 64 % 64)
              :: (128 + c.toNat % 64) :: rest)
            = some (c.toNat, rest) := by
          unfold decodeOne
          rw [if_neg (by omega), if_neg (by omega), if_neg (by omega), if_neg (by omega),
            if_pos (by omega)]
          show (if (isCont (128 + c.toNat / 4096 % 64) && isCont (128 + c.toNat / 64 % 64)
              && isCont (128 + c.toNat % 64) &&
              !(240 + c.toNat / 262144 == 240 && decide (128 + c.toNat / 4096 % 64 < 144)) &&
              !(240 + c.toNat / 262144 == 244 && decide (144 ≤ 128 + c.toNat / 4096 % 64)))
              = true
            then some ((240 + c.toNat / 262144 - 240) * 262144
              + (128 + c.toNat / 4096 % 64 - 128) * 4096
              + (128 + c.toNat / 64 % 64 - 128) * 64 + (128 + c.toNat % 64 - 128), rest)
            else none) = some (c.toNat, rest)
          rw [if_pos hguard,
            show (240 + c.toNat / 262144 - 240) * 262144
              + (128 + c.toNat / 4096 % 64 - 128) * 4096
              + (128 + c.toNat / 64 % 64 - 128) * 64 + (128 + c.toNat % 64 - 128)
              = c.toNat from by omega]
        rw [henc, List.cons_append, List.cons_append, List.cons_append, List.cons_append,
          List.nil_append, decodeAuxF, hone]
        show (decodeAuxF f rest).map (fun cs => Char.ofNat c.toNat :: cs) = _
        rw [Char.ofNat_toNat]

theorem utf8EncodeChar_length_pos (c : Char) : 1 ≤ (utf8EncodeChar c).length := by
  unfold utf8EncodeChar
  by_cases h1 : c.toNat < 128
  · rw [if_pos h1]
    simp
  · rw [if_neg h1]
    by_cases h2 : c.toNat < 2048
    · rw [if_pos h2]
      simp
    · rw [if_neg h2]
      by_cases h3 : c.toNat < 65536
      · rw [if_pos h3]
        simp
      · rw [if_neg h3]
        simp

theorem encodeChars_length_ge (l : List Char) : l.length ≤ (encodeChars l).length := by
  induction l with
  | nil => simp [encodeChars]
  | cons c r ih =>
    rw [encodeChars, List.length_append, List.length_cons]
    have := utf8EncodeChar_length_pos c
    omega

theorem decodeAuxF_nil (f : Nat) : decodeAuxF f [] = some [] := by
  cases f <;> rfl

theorem decodeAuxF_encode (l : List Char) :
    ∀ f : Nat, l.length ≤ f → decodeAuxF f (encodeChars l) = some l := by
  induction l with
  | nil =>
    intro f _
    exact decodeAuxF_nil f
  | cons c r ih =>
    intro f hf
    obtain ⟨f2, rfl⟩ : ∃ f2, f = f2 + 1 := ⟨f - 1, by simp at hf; omega⟩
    rw [encodeChars, decode_step c (encodeChars r) f2, ih f2 (by simp at hf; omega)]
    rfl

theorem decode_encode (l : List Char) : decodeChars (encodeChars l) = some l := by
  rw [decodeChars]
  exact decodeAuxF_encode l _ (le_trans (encodeChars_length_ge l) (le_refl _))

theorem encodeChars_append (a b : List Char) :
    encodeChars (a ++ b) = encodeChars a ++ encodeChars b := by
  induction a with
  | nil => rfl
  | cons c r ih =>
    rw [List.cons_append, encodeChars, encodeChars, ih, List.append_assoc]

theorem mem_utf8EncodeChar (c : Char) (b : Nat) (hb : b ∈ utf8EncodeChar c) :
    b = c.toNat ∨ 128 ≤ b := by
  unfold utf8EncodeChar at hb
  by_cases h1 : c.toNat < 128
  · left
    rw [if_pos h1] at hb
    simpa using hb
  · right
    rw [if_neg h1] at hb
    by_cases h2 : c.toNat < 2048
    · rw [if_pos h2] at hb
      simp only [List.mem_cons, List.not_mem_nil, or_false] at hb
      rcases hb with h | h <;> omega
    · rw [if_neg h2] at hb
      by_cases h3 : c.toNat < 65536
      · rw [if_pos h3] at hb
        simp only [List.mem_cons, List.not_mem_nil, or_false] at hb
        rcases hb with h | h | h <;> omega
      · rw [if_neg h3] at hb
        simp only [List.mem_cons, List.not_mem_nil, or_false] at hb
        rcases hb with h | h | h | h <;> omega

theorem encode_no_byte (l : List Char) (k : Nat) (hk : k < 128)
    (h : ∀ c ∈ l, c.toNat ≠ k) : k ∉ encodeChars l := by
  induction l with
  | nil => simp [encodeChars]
  | cons c r ih =>
    rw [encodeChars]
    intro hmem
    rcases List.mem_append.mp hmem with hm | hm
    · rcases mem_utf8EncodeChar c k hm with he | he
      · exact h c (List.mem_cons_self _ _) he.symm
      · omega
    · exact ih (fun d hd => h d (List.mem_cons_of_mem _ hd)) hm

theorem C8_history_walk_witness :
    chainB
      [("h1", ⟨some "t1", some "h2", some "a", "m1"⟩),
       ("h2", ⟨some "t2", none, some "a", "m2"⟩)]
      [("h1", ⟨some "t1", some "h2", some "a", "m1"⟩),
       ("h2", ⟨some "t2", none, some "a", "m2"⟩)] none = true ∧
    cmd_log
      [("h1", ⟨some "t1", some "h2", some "a", "m1"⟩),
       ("h2", ⟨some "t2", none, some "a", "m2"⟩)] "h1"
      = ([("h1", ⟨some "t1", some "h2", some "a", "m1"⟩),
          ("h2", ⟨some "t2", none, some "a", "m2"⟩)], LogOutcome.ended) := by
  refine ⟨by decide, ?_⟩
  exact ((C8_history_walk
      [("h1", ⟨some "t1", some "h2", some "a", "m1"⟩),
       ("h2", ⟨some "t2", none, some "a", "m2"⟩)]).1
    ("h1", ⟨some "t1", some "h2", some "a", "m1"⟩)
    [("h2", ⟨some "t2", none, some "a", "m2"⟩)] none (by decide)).1 rfl

/-! ### Hex codec correctness -/

theorem lowerHex_val (c : Char) (h : isLowerHexChar c = true) :
    ∃ v, v < 16 ∧ hexDigitVal c = some v ∧ hexDigitChar v = c := by
  simp only [isLowerHexChar, Bool.or_eq_true, Bool.and_eq_true, decide_eq_true_eq] at h
  rcases h with ⟨h1, h2⟩ | ⟨h1, h2⟩
  · refine ⟨c.toNat - 48, by omega, ?_, ?_⟩
    · unfold hexDigitVal
      rw [if_pos (by simp only [Bool.and_eq_true, decide_eq_true_eq]; omega)]
    · unfold hexDigitChar
      rw [if_pos (by omega), show 48 + (c.toNat - 48) = c.toNat from by omega,
        Char.ofNat_toNat]
  · refine ⟨c.toNat - 87, by omega, ?_, ?_⟩
    · unfold hexDigitVal
      rw [if_neg (by simp only [Bool.and_eq_true, decide_eq_true_eq]; omega),
        if_pos (by simp only [Bool.and_eq_true, decide_eq_true_eq]; omega)]
    · unfold hexDigitChar
      rw [if_neg (by omega), show 87 + (c.toNat - 87) = c.toNat from by omega,
        Char.ofNat_toNat]

theorem lowerHex_ne_space (c : Char) (h : isLowerHexChar c = true) : ¬ c = ' ' := by
  intro he
  rw [he] at h
  exact absurd h (by decide)

theorem hexDecode_canonical_aux :
    ∀ (n : Nat) (l : List Char), l.length ≤ n →
    (∀ c ∈ l, isLowerHexChar c = true) → l.length % 2 = 0 →
    ∃ bs, hexDecodeL l = some bs ∧ hexEncodeL bs = l ∧ 2 * bs.length = l.length
      ∧ ∀ b ∈ bs, b < 256 := by
  intro n
  induction n with
  | zero =>
    intro l hn _ _
    have : l = [] := List.length_eq_zero.mp (by omega)
    subst this
    exact ⟨[], rfl, rfl, rfl, by simp⟩
  | succ n ih =>
    intro l hn hhex hlen
    cases l with
    | nil => exact ⟨[], rfl, rfl, rfl, by simp⟩
    | cons c1 rest =>
      cases rest with
      | nil => simp at hlen
      | cons c2 r =>
        obtain ⟨v1, hv1lt, hv1, hc1⟩ := lowerHex_val c1 (hhex c1 (by simp))
        obtain ⟨v2, hv2lt, hv2, hc2⟩ := lowerHex_val c2 (hhex c2 (by simp))
        obtain ⟨bs, hdec, henc, hblen, hbs⟩ := ih r (by simp at hn ⊢; omega)
          (fun c hc => hhex c (by simp [hc])) (by simp at hlen ⊢; omega)
        refine ⟨(v1 * 16 + v2) :: bs, ?_, ?_, ?_, ?_⟩
        · rw [hexDecodeL, if_neg (lowerHex_ne_space c1 (hhex c1 (by simp))), hv1, hv2, hdec]
        · rw [hexEncodeL, show (v1 * 16 + v2) / 16 = v1 from by omega,
            show (v1 * 16 + v2) % 16 = v2 from by omega, hc1, hc2, henc]
        · simp at hblen ⊢
          omega
        · intro b hb
          rcases List.mem_cons.mp hb with hb | hb
          · omega
          · exact hbs b hb

theorem hexDecode_canonical (l : List Char) (hhex : ∀ c ∈ l, isLowerHexChar c = true)
    (hlen : l.length % 2 = 0) :
    ∃ bs, hexDecodeL l = some bs ∧ hexEncodeL bs = l ∧ 2 * bs.length = l.length
      ∧ ∀ b ∈ bs, b < 256 :=
  hexDecode_canonical_aux l.length l (le_refl _) hhex hlen

/-! ### splitlines / join correctness -/

theorem bool_ne_true (b : Bool) (h : b = false) : ¬ b = true := by
  rw [h]
  exact Bool.false_ne_true

theorem splitLinesAux_cons_var (c : Char) (r acc : List Char)
    (hc : ∀ r1, c = '\x0d' → r = '\n' :: r1 → False) :
    splitLinesAux (c :: r) acc =
      if breakChar c then acc.reverse :: splitLinesAux r [] else splitLinesAux r (c :: acc) := by
  rw [splitLinesAux]
  exact hc

theorem no_crlf_of_noBreak (c : Char) (r : List Char) (hcb : breakChar c = false) :
    ∀ r1, c = '\x0d' → r = '\n' :: r1 → False := by
  intro r1 he _
  rw [he] at hcb
  exact absurd hcb (by decide)

theorem splitLinesAux_ne_nil (m acc : List Char) (h : m ≠ [] ∨ acc ≠ []) :
    splitLinesAux m acc ≠ [] := by
  induction m, acc using splitLinesAux.induct
  case case1 acc hemp =>
    rcases h with h | h
    · exact absurd rfl h
    · exact absurd (List.isEmpty_iff.mp hemp) h
  case case2 acc hemp =>
    show (if acc.isEmpty then [] else [acc.reverse]) ≠ []
    rw [if_neg hemp]
    simp
  case case3 r acc ih =>
    show acc.reverse :: splitLinesAux r [] ≠ []
    simp
  case case4 c r acc hne hb ih =>
    rw [splitLinesAux_cons_var c r acc hne, if_pos hb]
    simp
  case case5 c r acc hne hb ih =>
    rw [splitLinesAux_cons_var c r acc hne, if_neg hb]
    exact ih (Or.inr (by simp))

theorem joinNl_cons_of_ne (x : List Char) (ls : List (List Char)) (h : ls ≠ []) :
    joinNl (x :: ls) = x ++ '\n' :: joinNl ls := by
  cases ls with
  | nil => exact absurd rfl h
  | cons y ys => rfl

theorem splitLinesAux_line (l : List Char) :
    ∀ (r acc : List Char), (∀ c ∈ l, breakChar c = false) →
    splitLinesAux (l ++ '\n' :: r) acc = (acc.reverse ++ l) :: splitLinesAux r [] := by
  induction l with
  | nil =>
    intro r acc _
    show splitLinesAux ('\n' :: r) acc = (acc.reverse ++ []) :: splitLinesAux r []
    rw [List.append_nil]
    rfl
  | cons c l ih =>
    intro r acc h
    have hcb : breakChar c = false := h c (by simp)
    show splitLinesAux (c :: (l ++ '\n' :: r)) acc = _
    rw [splitLinesAux_cons_var c _ acc (no_crlf_of_noBreak c _ hcb), if_neg (by simp [hcb]),
      ih r (c :: acc) (fun d hd => h d (by simp [hd]))]
    simp

theorem pySplit_peel (l r : List Char) (h : ∀ c ∈ l, breakChar c = false) :
    pySplitlinesL (l ++ '\n' :: r) = l :: pySplitlinesL r := by
  have := splitLinesAux_line l r [] h
  simpa [pySplitlinesL] using this

theorem pySplit_peel_nl (r : List Char) :
    pySplitlinesL ('\n' :: r) = [] :: pySplitlinesL r :=
  pySplit_peel [] r (by simp)

theorem joinNl_splitAux (m : List Char) :
    ∀ acc : List Char,
    (∀ c ∈ m, breakChar c = false ∨ c = '\n') →
    m.getLast? ≠ some '\n' →
    joinNl (splitLinesAux m acc) = acc.reverse ++ m := by
  induction m with
  | nil =>
    intro acc _ _
    show joinNl (if acc.isEmpty then [] else [acc.reverse]) = acc.reverse ++ []
    rw [List.append_nil]
    by_cases ha : acc.isEmpty = true
    · rw [if_pos ha, List.isEmpty_iff.mp ha]
      rfl
    · rw [if_neg ha]
      rfl
  | cons c r ih =>
    intro acc h hlast
    by_cases hcn : c = '\n'
    · subst hcn
      show joinNl (acc.reverse :: splitLinesAux r []) = acc.reverse ++ '\n' :: r
      cases r with
      | nil => exact absurd (by decide) hlast
      | cons y ys =>
        have hr : splitLinesAux (y :: ys) [] ≠ [] :=
          splitLinesAux_ne_nil _ _ (Or.inl (by simp))
        rw [joinNl_cons_of_ne _ _ hr]
        have hlast2 : (y :: ys).getLast? ≠ some '\n' := by
          rw [List.getLast?_cons_cons] at hlast
          exact hlast
        rw [ih [] (fun d hd => h d (by simp [hd])) hlast2]
        rfl
    · have hcb : breakChar c = false := by
        rcases h c (by simp) with hb | hb
        · exact hb
        · exact absurd hb hcn
      rw [splitLinesAux_cons_var c r acc (no_crlf_of_noBreak c r hcb), if_neg (by simp [hcb])]
      cases r with
      | nil =>
        show (c :: acc).reverse = acc.reverse ++ [c]
        simp
      | cons y ys =>
        have hlast2 : (y :: ys).getLast? ≠ some '\n' := by
          rw [List.getLast?_cons_cons] at hlast
          exact hlast
        rw [ih (c :: acc) (fun d hd => h d (by simp [hd])) hlast2]
        simp

theorem joinNl_pySplitlines (m : List Char)
    (h : ∀ c ∈ m, breakChar c = false ∨ c = '\n')
    (hlast : m.getLast? ≠ some '\n') :
    joinNl (pySplitlinesL m) = m := by
  have := joinNl_splitAux m [] h hlast
  simpa [pySplitlinesL] using this

theorem startsWithL_append (p s : List Char) : startsWithL (p ++ s) p = true := by
  induction p with
  | nil => cases s <;> rfl
  | cons c r ih =>
    show (decide (c = c) && startsWithL (r ++ s) r) = true
    simp [ih]

theorem noBreak_chars (s : String) (h : noBreakStr s = true) :
    ∀ c ∈ s.data, breakChar c = false := by
  intro c hc
  have := List.all_eq_true.mp h c hc
  simpa using this

theorem break_free_append (l1 l2 : List Char) (h1 : ∀ c ∈ l1, breakChar c = false)
    (h2 : ∀ c ∈ l2, breakChar c = false) : ∀ c ∈ l1 ++ l2, breakChar c = false := by
  intro c hc
  rcases List.mem_append.mp hc with hc | hc
  · exact h1 c hc
  · exact h2 c hc

theorem msgOk_chars (s : String) (h : msgOkStr s = true) :
    (∀ c ∈ s.data, breakChar c = false ∨ c = '\n') ∧ s.data.getLast? ≠ some '\n' := by
  simp only [msgOkStr, Bool.and_eq_true] at h
  obtain ⟨h1, h2⟩ := h
  constructor
  · intro c hc
    have := List.all_eq_true.mp h1 c hc
    simp only [Bool.or_eq_true, Bool.not_eq_true', beq_iff_eq] at this
    exact this
  · intro he
    rw [he] at h2
    simp at h2

/-! ### Commit serializer round-trip -/

theorem commit_roundtrip (c : GitCommit) (h : commitRoundOk c = true) :
    GitCommit.deserialize (GitCommit.serialize c) = some c := by
  obtain ⟨tO, pO, aO, msg⟩ := c
  simp only [commitRoundOk, Bool.and_eq_true] at h
  obtain ⟨⟨⟨h1, h2⟩, h3⟩, h4⟩ := h
  cases tO with
  | none => simp at h1
  | some t =>
  cases aO with
  | none => simp at h2
  | some a =>
  simp only at h1 h2
  have hm := msgOk_chars msg h4
  have hL1 : ∀ c ∈ "tree ".data ++ t.data, breakChar c = false :=
    break_free_append _ _ (by decide) (noBreak_chars t h1)
  have hLa : ∀ c ∈ "author ".data ++ a.data, breakChar c = false :=
    break_free_append _ _ (by decide) (noBreak_chars a h2)
  have hLc : ∀ c ∈ "committer ".data ++ a.data, breakChar c = false :=
    break_free_append _ _ (by decide) (noBreak_chars a h2)
  cases pO with
  | none =>
    show (decodeChars (encodeChars
        (("tree ".data ++ t.data) ++ '\n' :: (("author ".data ++ a.data) ++ '\n' ::
          (("committer ".data ++ a.data) ++ '\n' :: ('\n' :: msg.data)))))).map
        (fun cs => parseCommitGo (pySplitlinesL cs) none none none)
      = some ⟨some t, none, some a, msg⟩
    rw [decode_encode]
    show some (parseCommitGo (pySplitlinesL
        (("tree ".data ++ t.data) ++ '\n' :: (("author ".data ++ a.data) ++ '\n' ::
          (("committer ".data ++ a.data) ++ '\n' :: ('\n' :: msg.data)))))
        none none none) = _
    rw [pySplit_peel _ _ hL1, pySplit_peel _ _ hLa, pySplit_peel _ _ hLc, pySplit_peel_nl]
    rw [parseCommitGo, if_pos (startsWithL_append "tree ".data t.data)]
    rw [parseCommitGo,
      show startsWithL ("author ".data ++ a.data) "tree ".data = false from rfl,
      show startsWithL ("author ".data ++ a.data) "parent ".data = false from rfl,
      if_neg Bool.false_ne_true, if_neg Bool.false_ne_true,
      if_pos (startsWithL_append "author ".data a.data)]
    rw [parseCommitGo,
      show startsWithL ("committer ".data ++ a.data) "tree ".data = false from rfl,
      show startsWithL ("committer ".data ++ a.data) "parent ".data = false from rfl,
      show startsWithL ("committer ".data ++ a.data) "author ".data = false from rfl,
      show ("committer ".data ++ a.data).isEmpty = false from rfl,
      if_neg Bool.false_ne_true, if_neg Bool.false_ne_true, if_neg Bool.false_ne_true,
      if_neg Bool.false_ne_true]
    rw [parseCommitGo,
      show startsWithL [] "tree ".data = false from rfl,
      show startsWithL [] "parent ".data = false from rfl,
      show startsWithL [] "author ".data = false from rfl,
      if_neg Bool.false_ne_true, if_neg Bool.false_ne_true, if_neg Bool.false_ne_true,
      if_pos (show ([] : List Char).isEmpty = true from rfl)]
    rw [joinNl_pySplitlines msg.data hm.1 hm.2]
    rfl
  | some p =>
    simp only [Bool.and_eq_true, Bool.not_eq_true', beq_eq_false_iff_ne] at h3
    obtain ⟨hpne, hpb⟩ := h3
    have hLp : ∀ c ∈ "parent ".data ++ p.data, breakChar c = false :=
      break_free_append _ _ (by decide) (noBreak_chars p hpb)
    have hser : GitCommit.serialize ⟨some t, some p, some a, msg⟩ =
        encodeChars
          (("tree ".data ++ t.data) ++ '\n' :: (("parent ".data ++ p.data) ++ '\n' ::
            (("author ".data ++ a.data) ++ '\n' :: (("committer ".data ++ a.data) ++ '\n' ::
              ('\n' :: msg.data))))) := by
      show encodeChars (joinNl (GitCommit.serializeLines ⟨some t, some p, some a, msg⟩)) = _
      simp only [GitCommit.serializeLines]
      rw [if_neg hpne]
      rfl
    show (decodeChars (GitCommit.serialize ⟨some t, some p, some a, msg⟩)).map
        (fun cs => parseCommitGo (pySplitlinesL cs) none none none)
      = some ⟨some t, some p, some a, msg⟩
    rw [hser, decode_encode]
    show some (parseCommitGo (pySplitlinesL
        (("tree ".data ++ t.data) ++ '\n' :: (("parent ".data ++ p.data) ++ '\n' ::
          (("author ".data ++ a.data) ++ '\n' :: (("committer ".data ++ a.data) ++ '\n' ::
            ('\n' :: msg.data)))))) none none none) = _
    rw [pySplit_peel _ _ hL1, pySplit_peel _ _ hLp, pySplit_peel _ _ hLa,
      pySplit_peel _ _ hLc, pySplit_peel_nl]
    rw [parseCommitGo, if_pos (startsWithL_append "tree ".data t.data)]
    rw [parseCommitGo,
      show startsWithL ("parent ".data ++ p.data) "tree ".data = false from rfl,
      if_neg Bool.false_ne_true,
      if_pos (startsWithL_append "parent ".data p.data)]
    rw [parseCommitGo,
      show startsWithL ("author ".data ++ a.data) "tree ".data = false from rfl,
      show startsWithL ("author ".data ++ a.data) "parent ".data = false from rfl,
      if_neg Bool.false_ne_true, if_neg Bool.false_ne_true,
      if_pos (startsWithL_append "author ".data a.data)]
    rw [parseCommitGo,
      show startsWithL ("committer ".data ++ a.data) "tree ".data = false from rfl,
      show startsWithL ("committer ".data ++ a.data) "parent ".data = false from rfl,
      show startsWithL ("committer ".data ++ a.data) "author ".data = false from rfl,
      show ("committer ".data ++ a.data).isEmpty = false from rfl,
      if_neg Bool.false_ne_true, if_neg Bool.false_ne_true, if_neg Bool.false_ne_true,
      if_neg Bool.false_ne_true]
    rw [parseCommitGo,
      show startsWithL [] "tree ".data = false from rfl,
      show startsWithL [] "parent ".data = false from rfl,
      show startsWithL [] "author ".data = false from rfl,
      if_neg Bool.false_ne_true, if_neg Bool.false_ne_true, if_neg Bool.false_ne_true,
      if_pos (show ([] : List Char).isEmpty = true from rfl)]
    rw [joinNl_pySplitlines msg.data hm.1 hm.2]
    rfl

/-! ### Tree serializer round-trip -/

theorem splitOnceSpace_append (m r : List Char) (h : ∀ c ∈ m, ¬ c = ' ') :
    splitOnceSpace (m ++ ' ' :: r) = some (m, r) := by
  induction m with
  | nil => rfl
  | cons c cs ih =>
    show splitOnceSpace (c :: (cs ++ ' ' :: r)) = some (c :: cs, r)
    rw [splitOnceSpace]
    · rw [ih (fun d hd => h d (by simp [hd]))]
      rfl
    · intro he
      exact absurd he (h c (by simp))

theorem findByteAux_no_append (t : Nat) (l1 l2 : List Nat) (h : ∀ b ∈ l1, ¬ b = t) :
    findByteAux t (l1 ++ t :: l2) = some l1.length := by
  induction l1 with
  | nil =>
    show (if t = t then some 0 else (findByteAux t l2).map (fun x => x + 1)) = some 0
    rw [if_pos rfl]
  | cons b r ih =>
    show (if b = t then some 0 else (findByteAux t (r ++ t :: l2)).map (fun x => x + 1))
      = some (r.length + 1)
    rw [if_neg (h b (by simp)), ih (fun x hx => h x (by simp [hx]))]
    rfl

theorem pyFindB_zero (pre hdr tail : List Nat) (h : ∀ b ∈ hdr, ¬ b = 0) :
    pyFindB (pre ++ (hdr ++ 0 :: tail)) 0 (pre.length : Int)
      = ((pre.length + hdr.length : Nat) : Int) := by
  simp only [pyFindB]
  rw [if_neg (Int.not_lt.mpr (Int.natCast_nonneg _)), Int.toNat_natCast, List.drop_left,
    findByteAux_no_append 0 hdr tail h]

theorem pySliceL_take_drop (data : List Nat) (lo hi : Nat)
    (hlo : lo ≤ data.length) (hhi : hi ≤ data.length) :
    pySliceL data (lo : Int) (hi : Int) = (data.take hi).drop lo := by
  unfold pySliceL normSliceIdx
  rw [if_neg (Int.not_lt.mpr (Int.natCast_nonneg _)),
    if_neg (Int.not_lt.mpr (Int.natCast_nonneg _)), Int.toNat_natCast, Int.toNat_natCast,
    min_eq_left hhi, min_eq_left hlo]

theorem take_drop_hdr (pre hdr tail : List Nat) :
    ((pre ++ (hdr ++ 0 :: tail)).take (pre.length + hdr.length)).drop pre.length = hdr := by
  have hshape : pre ++ (hdr ++ 0 :: tail) = (pre ++ hdr) ++ 0 :: tail := by
    simp [List.append_assoc]
  rw [hshape, List.take_left' (by simp), List.drop_left]

theorem take_drop_sha (pre hdr sb rest : List Nat) (hsb : sb.length = 20) :
    ((pre ++ (hdr ++ 0 :: (sb ++ rest))).take (pre.length + hdr.length + 21)).drop
      (pre.length + hdr.length + 1) = sb := by
  have hshape : pre ++ (hdr ++ 0 :: (sb ++ rest)) = ((pre ++ hdr) ++ 0 :: sb) ++ rest := by
    simp [List.append_assoc]
  rw [hshape, List.take_left' (by simp only [List.length_append, List.length_cons, hsb]),
    show (pre ++ hdr) ++ 0 :: sb = (pre ++ hdr ++ [0]) ++ sb from by simp,
    List.drop_left' (by simp only [List.length_append, List.length_cons, List.length_nil])]

theorem treeBytesOf_length (rs : List (String × String × List Nat)) :
    rs.length ≤ (treeBytesOf rs).length := by
  induction rs with
  | nil => simp [treeBytesOf]
  | cons e rs ih =>
    simp only [treeBytesOf, treeEntryBytes, List.length_append, List.length_cons,
      List.length_cons]
    omega

theorem treeDeserLoop_entries (rs : List (String × String × List Nat)) :
    ∀ (pre : List Nat) (fuel : Nat) (acc : List (String × String × String)),
    (∀ e ∈ rs, treeEntryWf e = true) →
    rs.length < fuel →
    treeDeserLoop (pre ++ treeBytesOf rs) fuel pre.length acc =
      PyRes.ok (acc ++ rs.map (fun e => (e.1, e.2.1, (⟨hexEncodeL e.2.2⟩ : String)))) := by
  induction rs with
  | nil =>
    intro pre fuel acc _ hfuel
    obtain ⟨f, rfl⟩ : ∃ f, fuel = f + 1 := ⟨fuel - 1, by omega⟩
    rw [treeDeserLoop, if_neg (by simp [treeBytesOf])]
    simp [treeBytesOf]
  | cons e rs ih =>
    intro pre fuel acc hwf hfuel
    obtain ⟨m, p, sb⟩ := e
    have hew := hwf _ (List.mem_cons_self _ _)
    simp only [treeEntryWf, Bool.and_eq_true, beq_iff_eq] at hew
    obtain ⟨⟨hm, hp⟩, hsb⟩ := hew
    obtain ⟨f, rfl⟩ : ∃ f, fuel = f + 1 := ⟨fuel - 1, by omega⟩
    have hchars : ∀ c ∈ m.data ++ ' ' :: p.data, c.toNat ≠ 0 := by
      intro c hc
      rcases List.mem_append.mp hc with hc | hc
      · have := List.all_eq_true.mp hm c hc
        simp only [Bool.and_eq_true, Bool.not_eq_true', beq_eq_false_iff_ne] at this
        exact this.1
      · rcases List.mem_cons.mp hc with rfl | hc
        · decide
        · have := List.all_eq_true.mp hp c hc
          simpa using this
    have hspace : ∀ c ∈ m.data, ¬ c = ' ' := by
      intro c hc he
      have := List.all_eq_true.mp hm c hc
      simp only [Bool.and_eq_true, Bool.not_eq_true', beq_eq_false_iff_ne] at this
      rw [he] at this
      exact this.2 rfl
    have hbytes : ∀ b ∈ encodeChars (m.data ++ ' ' :: p.data), ¬ b = 0 := by
      intro b hb he
      rw [he] at hb
      exact encode_no_byte _ 0 (by omega) hchars hb
    have hdata : pre ++ treeBytesOf ((m, p, sb) :: rs) =
        pre ++ (encodeChars (m.data ++ ' ' :: p.data) ++ 0 :: (sb ++ treeBytesOf rs)) := by
      simp [treeBytesOf, treeEntryBytes, List.append_assoc]
    rw [hdata]
    have hlen : (pre ++ (encodeChars (m.data ++ ' ' :: p.data) ++
        0 :: (sb ++ treeBytesOf rs))).length =
        pre.length + (encodeChars (m.data ++ ' ' :: p.data)).length + 21 +
          (treeBytesOf rs).length := by
      simp only [List.length_append, List.length_cons, hsb]
      omega
    have hfind := pyFindB_zero pre (encodeChars (m.data ++ ' ' :: p.data))
      (sb ++ treeBytesOf rs) hbytes
    have hslice1 : pySliceL (pre ++ (encodeChars (m.data ++ ' ' :: p.data) ++
        0 :: (sb ++ treeBytesOf rs))) (pre.length : Int)
        ((pre.length + (encodeChars (m.data ++ ' ' :: p.data)).length : Nat) : Int)
        = encodeChars (m.data ++ ' ' :: p.data) := by
      rw [pySliceL_take_drop _ _ _ (by rw [hlen]; omega) (by rw [hlen]; omega)]
      exact take_drop_hdr pre _ _
    have hslice2 : pySliceL (pre ++ (encodeChars (m.data ++ ' ' :: p.data) ++
        0 :: (sb ++ treeBytesOf rs)))
        (((pre.length + (encodeChars (m.data ++ ' ' :: p.data)).length : Nat) : Int) + 1)
        (((pre.length + (encodeChars (m.data ++ ' ' :: p.data)).length : Nat) : Int) + 21)
        = sb := by
      rw [show (((pre.length + (encodeChars (m.data ++ ' ' :: p.data)).length : Nat) : Int) + 1)
          = ((pre.length + (encodeChars (m.data ++ ' ' :: p.data)).length + 1 : Nat) : Int)
          from by push_cast; ring,
        show (((pre.length + (encodeChars (m.data ++ ' ' :: p.data)).length : Nat) : Int) + 21)
          = ((pre.length + (encodeChars (m.data ++ ' ' :: p.data)).length + 21 : Nat) : Int)
          from by push_cast; ring]
      rw [pySliceL_take_drop _ _ _ (by rw [hlen]; omega) (by rw [hlen]; omega)]
      exact take_drop_sha pre _ sb _ hsb
    have hsplit : splitOnceSpace (m.data ++ ' ' :: p.data) = some (m.data, p.data) :=
      splitOnceSpace_append _ _ hspace
    rw [treeDeserLoop, if_pos (by rw [hlen]; omega)]
    simp only [hfind, hslice1, hslice2, decode_encode, hsplit]
    rw [show ((((pre.length + (encodeChars (m.data ++ ' ' :: p.data)).length : Nat) : Int)
        + 21).toNat) = (pre ++ (encodeChars (m.data ++ ' ' :: p.data) ++ 0 :: sb)).length
        from by simp only [List.length_append, List.length_cons, hsb]; omega]
    rw [show pre ++ (encodeChars (m.data ++ ' ' :: p.data) ++ 0 :: (sb ++ treeBytesOf rs))
        = (pre ++ (encodeChars (m.data ++ ' ' :: p.data) ++ 0 :: sb)) ++ treeBytesOf rs
        from by simp [List.append_assoc]]
    rw [ih (pre ++ (encodeChars (m.data ++ ' ' :: p.data) ++ 0 :: sb)) f _
      (fun x hx => hwf x (List.mem_cons_of_mem _ hx))
      (by simp only [List.length_cons] at hfuel; omega)]
    simp

theorem treeDeser_wf (rs : List (String × String × List Nat))
    (hwf : ∀ e ∈ rs, treeEntryWf e = true) :
    GitTree.deserialize (treeBytesOf rs) =
      PyRes.ok ⟨rs.map (fun e => (e.1, e.2.1, (⟨hexEncodeL e.2.2⟩ : String)))⟩ := by
  have h := treeDeserLoop_entries rs [] ((treeBytesOf rs).length + 2) [] hwf
    (by have := treeBytesOf_length rs; omega)
  simp only [List.nil_append, List.length_nil] at h
  unfold GitTree.deserialize
  rw [h]

theorem treeSer_raw (es : List (String × String × String))
    (h : ∀ e ∈ es, treeEntryOk e = true) :
    ∃ rs : List (String × String × List Nat),
      treeSerEntries es = some (treeBytesOf rs) ∧
      (∀ e ∈ rs, treeEntryWf e = true) ∧
      rs.map (fun e => (e.1, e.2.1, (⟨hexEncodeL e.2.2⟩ : String))) = es := by
  induction es with
  | nil => exact ⟨[], rfl, by simp, rfl⟩
  | cons e es ih =>
    obtain ⟨m, p, sha⟩ := e
    have he := h _ (List.mem_cons_self _ _)
    simp only [treeEntryOk, Bool.and_eq_true, beq_iff_eq] at he
    obtain ⟨⟨⟨hm, hp⟩, hlen⟩, hhex⟩ := he
    obtain ⟨sb, hdec, henc, hblen, _⟩ := hexDecode_canonical sha.data
      (fun c hc => List.all_eq_true.mp hhex c hc) (by omega)
    obtain ⟨rs, hser, hwf, hmap⟩ := ih (fun x hx => h x (List.mem_cons_of_mem _ hx))
    refine ⟨(m, p, sb) :: rs, ?_, ?_, ?_⟩
    · show (match hexDecodeL sha.data, treeSerEntries es with
        | some sb2, some rest =>
          some (encodeChars (m.data ++ ' ' :: p.data) ++ 0 :: (sb2 ++ rest))
        | _, _ => none) = some (treeBytesOf ((m, p, sb) :: rs))
      rw [hdec, hser]
      show some _ = some _
      rw [show treeBytesOf ((m, p, sb) :: rs)
          = (encodeChars (m.data ++ ' ' :: p.data) ++ 0 :: sb) ++ treeBytesOf rs from rfl]
      simp [List.append_assoc]
    · intro x hx
      rcases List.mem_cons.mp hx with rfl | hx
      · simp only [treeEntryWf, Bool.and_eq_true, beq_iff_eq]
        exact ⟨⟨hm, hp⟩, by omega⟩
      · exact hwf x hx
    · show (m, p, (⟨hexEncodeL sb⟩ : String)) :: rs.map _ = (m, p, sha) :: es
      rw [henc, hmap]

theorem tree_roundtrip (t : GitTree) (h : ∀ e ∈ t.entries, treeEntryOk e = true) :
    ∃ bs, GitTree.serialize t = some bs ∧ GitTree.deserialize bs = PyRes.ok t := by
  obtain ⟨rs, hser, hwf, hmap⟩ := treeSer_raw t.entries h
  exact ⟨treeBytesOf rs, hser, by rw [treeDeser_wf rs hwf, hmap]⟩

/-- C2: serializer round-trips, as provable: `deserialize (serialize x) = x`
holds for every Blob; for a Tree it holds (serialization succeeding) when
every entry has a NUL-free space-free mode, a NUL-free name and a 40-digit
lowercase-hex sha; for a Commit it holds when tree and author are present
and line-break-free, the parent is absent or non-empty and line-break-free,
and the message's only line-break characters are `\n` with no trailing
newline.  The spec's unconditional claim is refuted by
`C2_counterexample`. -/
theorem C2_serializer_roundtrip :
    (∀ b : GitBlob, GitBlob.deserialize (GitBlob.serialize b) = b)
    ∧ (∀ t : GitTree, (∀ e ∈ t.entries, treeEntryOk e = true) →
        ∃ bs, GitTree.serialize t = some bs ∧ GitTree.deserialize bs = PyRes.ok t)
    ∧ (∀ c : GitCommit, commitRoundOk c = true →
        GitCommit.deserialize (GitCommit.serialize c) = some c) :=
  ⟨fun _ => rfl, fun t ht => tree_roundtrip t ht, fun c hc => commit_roundtrip c hc⟩

theorem C2_serializer_roundtrip_witness :
    commitRoundOk ⟨some "t0", some "p0", some "a0", "hello\nworld"⟩ = true
    ∧ GitCommit.deserialize
        (GitCommit.serialize ⟨some "t0", some "p0", some "a0", "hello\nworld"⟩)
      = some ⟨some "t0", some "p0", some "a0", "hello\nworld"⟩ :=
  ⟨by decide, C2_serializer_roundtrip.2.2 ⟨some "t0", some "p0", some "a0", "hello\nworld"⟩
    (by decide)⟩

/-- C2 counterexample: a Commit whose message ends in a newline does not
round-trip — `splitlines` drops the final line break and the parser
rejoins with `"\n".join`, so the message comes back as `"m"`. -/
theorem C2_counterexample :
    GitCommit.deserialize (GitCommit.serialize ⟨some "t", none, some "a", "m\n"⟩)
      ≠ some ⟨some "t", none, some "a", "m\n"⟩ := by
  decide

/-- C5: the positive half of the claim holds — on a byte string that is a
concatenation of entries `"<mode> <name>"`, NUL, 20 raw sha bytes (mode
NUL- and space-free, name NUL-free), deserialization terminates and
succeeds with exactly those entries, shas re-encoded in lowercase hex.
The "exactly"/error half is refuted by `C5_counterexample`: inputs not of
this layout can also be accepted, no MalformedTree error exists in the
code, and on other non-layout inputs the loop never terminates at all. -/
theorem C5_tree_deser_layout (rs : List (String × String × List Nat))
    (hwf : ∀ e ∈ rs, treeEntryWf e = true) :
    GitTree.deserialize (treeBytesOf rs)
      = PyRes.ok ⟨rs.map (fun e => (e.1, e.2.1, (⟨hexEncodeL e.2.2⟩ : String)))⟩ :=
  treeDeser_wf rs hwf

theorem C5_tree_deser_layout_witness :
    (∀ e ∈ [(("100644" : String), ("a" : String), List.replicate 20 0)], treeEntryWf e = true)
    ∧ GitTree.deserialize (treeBytesOf [("100644", "a", List.replicate 20 0)])
      = PyRes.ok ⟨[("100644", "a", (⟨hexEncodeL (List.replicate 20 0)⟩ : String))]⟩ :=
  ⟨by decide, C5_tree_deser_layout [("100644", "a", List.replicate 20 0)] (by decide)⟩

/-- On the 30-byte NUL-free input `b"a " * 15` the deserialization loop
re-enters index 20 forever: `find` returns -1, so the next index is
`(-1 + 21).toNat = 20` at every iteration while `20 < 30` keeps the loop
alive — no amount of fuel finishes it, the model of an infinite Python
loop. -/
theorem treeDeserLoop_diverges :
    ∀ (fuel : Nat) (acc : List (String × String × String)),
    treeDeserLoop ((List.replicate 15 [97, 32]).flatten) fuel 20 acc = PyRes.timeout := by
  intro fuel
  induction fuel with
  | zero =>
    intro acc
    rfl
  | succ f ih =>
    intro acc
    rw [treeDeserLoop, if_pos (by decide)]
    exact ih _

/-- C5 counterexample, refuting both failure modes the claim rules out.
The byte string `"a b"` is not a concatenation of well-framed entries (it
has no NUL byte at all, and no 20 trailing sha bytes), yet
`GitTree.deserialize` accepts it: `find` returns -1, the slice
`data[i:-1]` yields `"a "`, and `data[j+1:j+21]` wraps around to the
whole input, producing the entry `("a", "", "612062")`.  And the NUL-free
input `b"a " * 15` — also not of the layout — makes the loop diverge: the
index is stuck at 20, so the loop runs out of any fuel (the Python loop
never terminates) instead of failing with an error. -/
theorem C5_counterexample :
    (GitTree.deserialize [97, 32, 98] = PyRes.ok ⟨[("a", "", "612062")]⟩
    ∧ ∀ rs : List (String × String × List Nat), treeBytesOf rs ≠ [97, 32, 98])
    ∧ ((∀ (fuel : Nat) (acc : List (String × String × String)),
        treeDeserLoop ((List.replicate 15 [97, 32]).flatten) fuel 20 acc = PyRes.timeout)
    ∧ GitTree.deserialize ((List.replicate 15 [97, 32]).flatten) = PyRes.timeout
    ∧ ∀ rs : List (String × String × List Nat),
        treeBytesOf rs ≠ (List.replicate 15 [97, 32]).flatten) := by
  refine ⟨⟨by decide, ?_⟩, treeDeserLoop_diverges, by decide, ?_⟩
  · intro rs he
    cases rs with
    | nil => simp [treeBytesOf] at he
    | cons e rs2 =>
      have h0 : (0 : Nat) ∈ treeBytesOf (e :: rs2) := by
        show (0 : Nat) ∈ treeEntryBytes e.1 e.2.1 e.2.2 ++ treeBytesOf rs2
        simp [treeEntryBytes]
      rw [he] at h0
      simp at h0
  · intro rs he
    cases rs with
    | nil => exact absurd he (by decide)
    | cons e rs2 =>
      have h0 : (0 : Nat) ∈ treeBytesOf (e :: rs2) := by
        show (0 : Nat) ∈ treeEntryBytes e.1 e.2.1 e.2.2 ++ treeBytesOf rs2
        simp [treeEntryBytes]
      rw [he] at h0
      exact absurd h0 (by decide)

/-! ### object_read dispatch -/

theorem pyFindB_at0 (t : Nat) (hdr tail : List Nat) (h : ∀ b ∈ hdr, ¬ b = t) :
    pyFindB (hdr ++ t :: tail) t 0 = (hdr.length : Int) := by
  simp only [pyFindB]
  rw [if_neg (by decide), show ((0 : Int)).toNat = 0 from rfl, List.drop_zero,
    findByteAux_no_append t hdr tail h]
  simp

theorem pySliceL_prefix (l1 rest : List Nat) :
    pySliceL (l1 ++ rest) 0 ((l1.length : Nat) : Int) = l1 := by
  unfold pySliceL normSliceIdx
  have hle : l1.length ≤ (l1 ++ rest).length := by
    simp only [List.length_append]
    omega
  rw [if_neg (Int.not_lt.mpr (Int.natCast_nonneg _)), if_neg (by decide),
    Int.toNat_natCast, show ((0 : Int)).toNat = 0 from rfl,
    min_eq_left (Nat.zero_le _), min_eq_left hle, List.drop_zero, List.take_left]

theorem take_drop_lenB (enc lenB rest : List Nat) :
    ((enc ++ 32 :: (lenB ++ 0 :: rest)).take (enc.length + (lenB.length + 1))).drop
      (enc.length + 1) = lenB := by
  have hshape : enc ++ 32 :: (lenB ++ 0 :: rest) = ((enc ++ [32]) ++ lenB) ++ 0 :: rest := by
    simp [List.append_assoc]
  have h1 : ((enc ++ [32]) ++ lenB).length = enc.length + (lenB.length + 1) := by
    simp only [List.length_append, List.length_cons, List.length_nil]
    omega
  have h2 : (enc ++ [32]).length = enc.length + 1 := by
    simp only [List.length_append, List.length_cons, List.length_nil]
  rw [hshape, List.take_left' h1, List.drop_left' h2]

theorem encodeChars_inj (a b : List Char) (h : encodeChars a = encodeChars b) : a = b := by
  have h1 := decode_encode a
  rw [h, decode_encode b] at h1
  injection h1 with h1
  exact h1.symm

theorem encodeStr_inj (a b : String) (h : encodeStr a = encodeStr b) : a = b := by
  have h2 := encodeChars_inj a.data b.data h
  cases a
  cases b
  exact congrArg String.mk h2

/-- C4: `object_read`'s behavior, as provable.  An absent hash fails with
ObjectNotFound.  On a decompressed frame laid out as
`"<tag> " ++ lenB ++ NUL ++ payload` (tag without space or NUL characters,
length field of ASCII digits), the read fails with CorruptFrame exactly
when `int()` rejects the length field, returns the deserialized object of
the variant the tag selects for `blob` / `commit` / `tree`, and fails with
UnknownObjectType for every other tag.  The spec's stronger claim that a
frame with no parsable tag/length/NUL structure always fails CorruptFrame
is refuted by `C4_counterexample`. -/
theorem C4_object_read (decompress : List Nat → List Nat)
    (store : List (String × List Nat)) (sha : String) :
    (pyGet store sha = none → object_read decompress store sha = ReadResult.objectNotFound)
    ∧ (∀ (raw : List Nat) (tag : String) (lenB payload : List Nat),
        pyGet store sha = some raw →
        decompress raw = frameOf tag lenB payload →
        (∀ c ∈ tag.data, c.toNat ≠ 32 ∧ c.toNat ≠ 0) →
        (∀ b ∈ lenB, isDigitB b = true) →
        ((pyIntOk lenB = false →
            object_read decompress store sha = ReadResult.corruptFrame)
        ∧ (pyIntOk lenB = true →
            ((tag = "blob" →
                object_read decompress store sha
                  = ReadResult.ok (GitObject.blob (GitBlob.deserialize payload)))
            ∧ (tag = "commit" →
                object_read decompress store sha
                  = match GitCommit.deserialize payload with
                    | some c => ReadResult.ok (GitObject.commit c)
                    | none => ReadResult.exn)
            ∧ (tag = "tree" →
                object_read decompress store sha
                  = match GitTree.deserialize payload with
                    | PyRes.ok t => ReadResult.ok (GitObject.tree t)
                    | PyRes.exn => ReadResult.exn
                    | PyRes.timeout => ReadResult.timeout)
            ∧ (tag ≠ "blob" → tag ≠ "commit" → tag ≠ "tree" →
                object_read decompress store sha = ReadResult.unknownObjectType))))) := by
  constructor
  · intro h
    simp only [object_read, h]
  · intro raw tag lenB payload hraw hframe htag hlen
    have htagb32 : ∀ b ∈ encodeStr tag, ¬ b = 32 := by
      intro b hb he
      rw [he] at hb
      exact encode_no_byte tag.data 32 (by omega) (fun c hc => (htag c hc).1) hb
    have htagb0 : ∀ b ∈ encodeStr tag, ¬ b = 0 := by
      intro b hb he
      rw [he] at hb
      exact encode_no_byte tag.data 0 (by omega) (fun c hc => (htag c hc).2) hb
    have hx : pyFindB (frameOf tag lenB payload) 32 0 = ((encodeStr tag).length : Int) :=
      pyFindB_at0 32 (encodeStr tag) (lenB ++ 0 :: payload) htagb32
    have hy : pyFindB (frameOf tag lenB payload) 0 ((encodeStr tag).length : Int)
        = (((encodeStr tag).length + (lenB.length + 1) : Nat) : Int) := by
      have h0 : ∀ b ∈ 32 :: lenB, ¬ b = 0 := by
        intro b hb he
        rcases List.mem_cons.mp hb with rfl | hb
        · exact absurd he (by decide)
        · have := hlen b hb
          simp only [isDigitB, Bool.and_eq_true, decide_eq_true_eq] at this
          omega
      exact pyFindB_zero (encodeStr tag) (32 :: lenB) payload h0
    have hfmt : pySliceL (frameOf tag lenB payload) 0 ((encodeStr tag).length : Int)
        = encodeStr tag := pySliceL_prefix (encodeStr tag) (32 :: (lenB ++ 0 :: payload))
    have hlenB : pySliceL (frameOf tag lenB payload)
        (((encodeStr tag).length : Int) + 1)
        (((encodeStr tag).length + (lenB.length + 1) : Nat) : Int) = lenB := by
      rw [show (((encodeStr tag).length : Int)) + 1
          = (((encodeStr tag).length + 1 : Nat) : Int) from by push_cast; ring]
      rw [pySliceL_take_drop _ _ _
        (by simp only [frameOf, List.length_append, List.length_cons]; omega)
        (by simp only [frameOf, List.length_append, List.length_cons]; omega)]
      exact take_drop_lenB (encodeStr tag) lenB payload
    have hdata : pySliceL (frameOf tag lenB payload)
        ((((encodeStr tag).length + (lenB.length + 1) : Nat) : Int) + 1)
        (((frameOf tag lenB payload).length : Nat) : Int) = payload := by
      rw [show ((((encodeStr tag).length + (lenB.length + 1) : Nat) : Int) + 1)
          = (((encodeStr tag).length + (lenB.length + 1) + 1 : Nat) : Int)
          from by push_cast; ring]
      rw [pySliceL_take_drop _ _ _
        (by simp only [frameOf, List.length_append, List.length_cons]; omega) (le_refl _)]
      rw [List.take_length]
      rw [show frameOf tag lenB payload
          = (encodeStr tag ++ 32 :: (lenB ++ [0])) ++ payload from by simp [frameOf]]
      have h3 : (encodeStr tag ++ 32 :: (lenB ++ [0])).length
          = (encodeStr tag).length + (lenB.length + 1) + 1 := by
        simp only [List.length_append, List.length_cons, List.length_nil]
        omega
      rw [List.drop_left' h3]
    have hout : object_read decompress store sha
        = if pyIntOk lenB = true then
            (if encodeStr tag = encodeStr "blob" then
              ReadResult.ok (GitObject.blob (GitBlob.deserialize payload))
            else if encodeStr tag = encodeStr "commit" then
              match GitCommit.deserialize payload with
              | some c => ReadResult.ok (GitObject.commit c)
              | none => ReadResult.exn
            else if encodeStr tag = encodeStr "tree" then
              match GitTree.deserialize payload with
              | PyRes.ok t => ReadResult.ok (GitObject.tree t)
              | PyRes.exn => ReadResult.exn
              | PyRes.timeout => ReadResult.timeout
            else ReadResult.unknownObjectType)
          else ReadResult.corruptFrame := by
      simp only [object_read, hraw, hframe]
      rw [hx, hy, hfmt, hlenB, hdata]
    constructor
    · intro hf
      rw [hout, hf, if_neg Bool.false_ne_true]
    · intro ht
      refine ⟨?_, ?_, ?_, ?_⟩
      · intro h
        subst h
        rw [hout, if_pos ht, if_pos rfl]
      · intro h
        subst h
        rw [hout, if_pos ht,
          if_neg (fun he => absurd (encodeStr_inj _ _ he) (by decide)), if_pos rfl]
      · intro h
        subst h
        rw [hout, if_pos ht,
          if_neg (fun he => absurd (encodeStr_inj _ _ he) (by decide)),
          if_neg (fun he => absurd (encodeStr_inj _ _ he) (by decide)), if_pos rfl]
      · intro h1 h2 h3
        rw [hout, if_pos ht,
          if_neg (fun he => h1 (encodeStr_inj _ _ he)),
          if_neg (fun he => h2 (encodeStr_inj _ _ he)),
          if_neg (fun he => h3 (encodeStr_inj _ _ he))]

/-- C4 counterexample: the frame `b"blob 123"` has no NUL byte at all, so
it cannot be parsed into tag/length/NUL/payload — yet `object_read` does
not fail with CorruptFrame: `find(b"\x00", x)` returns -1, the length
slice `raw[5:-1]` is `b"12"` which `int()` accepts, and `raw[0:]` makes
the whole frame the payload, returned as a Blob. -/
theorem C4_counterexample :
    object_read (fun b => b) [("d", encodeStr "blob 123")] "d"
      = ReadResult.ok (GitObject.blob ⟨encodeStr "blob 123"⟩)
    ∧ (0 : Nat) ∉ encodeStr "blob 123" := by
  constructor
  · decide
  · decide

/-! ### Index file round-trip -/

theorem data_ne (s : String) (h : s ≠ "") : s.data ≠ [] :=
  fun he => h (congrArg String.mk he)

theorem wsFree_chars (s : String) (h : wsFree s = true) : ∀ c ∈ s.data, pyWsC c = false := by
  intro c hc
  have := List.all_eq_true.mp h c hc
  simpa using this

theorem wsFree_no_cr (s : String) (h : wsFree s = true) : ∀ c ∈ s.data, ¬ c = '\x0d' := by
  intro c hc he
  have := wsFree_chars s h c hc
  rw [he] at this
  exact absurd this (by decide)

theorem wsFree_no_nl (s : String) (h : wsFree s = true) : ∀ c ∈ s.data, ¬ c = '\n' := by
  intro c hc he
  have := wsFree_chars s h c hc
  rw [he] at this
  exact absurd this (by decide)

theorem dropWhile_head (c : Char) (r : List Char) (hc : pyWsC c = false) :
    (c :: r).dropWhile pyWsC = c :: r := by
  rw [List.dropWhile_cons, if_neg (by simp [hc])]

theorem stripL_entry (p s : List Char) (hp : p ≠ []) (hs : s ≠ [])
    (hpw : ∀ c ∈ p, pyWsC c = false) (hsw : ∀ c ∈ s, pyWsC c = false) :
    stripL (p ++ ' ' :: (s ++ ['\n'])) = p ++ ' ' :: s := by
  obtain ⟨c, p', rfl⟩ : ∃ c p', p = c :: p' := by
    cases p with
    | nil => exact absurd rfl hp
    | cons c p' => exact ⟨c, p', rfl⟩
  obtain ⟨d, t, hrev⟩ : ∃ d t, s.reverse = d :: t := by
    cases hsr : s.reverse with
    | nil => exact absurd (List.reverse_eq_nil_iff.mp hsr) hs
    | cons d t => exact ⟨d, t, rfl⟩
  have hd : pyWsC d = false := by
    refine hsw d ?_
    have hmem : d ∈ s.reverse := by
      rw [hrev]
      exact List.mem_cons_self _ _
    simpa using hmem
  unfold stripL
  rw [show (c :: p') ++ ' ' :: (s ++ ['\n']) = c :: (p' ++ ' ' :: (s ++ ['\n'])) from rfl]
  rw [dropWhile_head c _ (hpw c (by simp))]
  have hrev1 : (c :: (p' ++ ' ' :: (s ++ ['\n']))).reverse
      = '\n' :: (s.reverse ++ (' ' :: (p'.reverse ++ [c]))) := by
    simp
  rw [hrev1, hrev]
  rw [List.dropWhile_cons, if_pos (by decide)]
  rw [show (d :: t) ++ ' ' :: (p'.reverse ++ [c])
      = d :: (t ++ ' ' :: (p'.reverse ++ [c])) from rfl]
  rw [dropWhile_head d _ hd]
  have hs2 : s = (d :: t).reverse := by
    rw [← hrev, List.reverse_reverse]
  rw [hs2]
  simp

theorem wordsAux_accum (x : List Char) :
    ∀ (r acc : List Char), (∀ c ∈ x, pyWsC c = false) →
    wordsAux (x ++ r) acc = wordsAux r (x.reverse ++ acc) := by
  induction x with
  | nil =>
    intro r acc _
    simp
  | cons c x' ih =>
    intro r acc h
    show wordsAux (c :: (x' ++ r)) acc = _
    rw [wordsAux, if_neg (by simp [h c (by simp)])]
    rw [ih r (c :: acc) (fun d hd => h d (by simp [hd]))]
    simp

theorem wordsAux_single (s : List Char) (hs : s ≠ []) (hw : ∀ c ∈ s, pyWsC c = false) :
    wordsAux s [] = [s] := by
  have h := wordsAux_accum s [] [] hw
  rw [List.append_nil] at h
  rw [h]
  show (if (s.reverse ++ []).isEmpty then [] else [(s.reverse ++ []).reverse]) = [s]
  rw [if_neg (fun hcond => hs (by simpa using List.isEmpty_iff.mp hcond))]
  simp

theorem pySplitWs_pair (p s : List Char) (hp : p ≠ []) (hs : s ≠ [])
    (hpw : ∀ c ∈ p, pyWsC c = false) (hsw : ∀ c ∈ s, pyWsC c = false) :
    pySplitWsL (p ++ ' ' :: s) = [p, s] := by
  unfold pySplitWsL
  rw [wordsAux_accum p (' ' :: s) [] hpw]
  rw [wordsAux, if_pos (by decide)]
  rw [if_neg (fun hcond => hp (by simpa using List.isEmpty_iff.mp hcond))]
  rw [wordsAux_single s hs hsw]
  simp

theorem normNl_cons_var (c : Char) (r : List Char) (hc : ¬ c = '\x0d') :
    normNl (c :: r) = c :: normNl r := by
  rw [normNl]
  · intro r1 h _
    exact hc h
  · intro h
    exact hc h

theorem normNl_id (l : List Char) (h : ∀ c ∈ l, ¬ c = '\x0d') : normNl l = l := by
  induction l with
  | nil => rfl
  | cons c r ih =>
    rw [normNl_cons_var c r (h c (by simp)), ih (fun d hd => h d (by simp [hd]))]

theorem fileLinesAux_cons_var (c : Char) (r acc : List Char) (hc : ¬ c = '\n') :
    fileLinesAux (c :: r) acc = fileLinesAux r (c :: acc) := by
  rw [fileLinesAux]
  intro h
  exact hc h

theorem fileLinesAux_line (b : List Char) :
    ∀ (rest acc : List Char), (∀ c ∈ b, ¬ c = '\n') →
    fileLinesAux (b ++ '\n' :: rest) acc
      = (acc.reverse ++ (b ++ ['\n'])) :: fileLinesAux rest [] := by
  induction b with
  | nil =>
    intro rest acc _
    show fileLinesAux ('\n' :: rest) acc = (acc.reverse ++ ([] ++ ['\n'])) :: fileLinesAux rest []
    rw [List.nil_append]
    rfl
  | cons c b' ih =>
    intro rest acc h
    show fileLinesAux (c :: (b' ++ '\n' :: rest)) acc = _
    rw [fileLinesAux_cons_var c _ acc (h c (by simp)),
      ih rest (c :: acc) (fun d hd => h d (by simp [hd]))]
    simp

theorem blocks_no_cr (ind : List (String × String)) :
    (∀ kv ∈ ind, wsFree kv.1 = true ∧ wsFree kv.2 = true) →
    ∀ c ∈ ind.foldr (fun kv acc => kv.1.data ++ ' ' :: kv.2.data ++ '\n' :: acc) [],
      ¬ c = '\x0d' := by
  induction ind with
  | nil =>
    intro _ c hc
    simp at hc
  | cons kv ind' ih =>
    intro h c hc
    rw [List.foldr_cons] at hc
    rcases List.mem_append.mp hc with hc | hc
    · rcases List.mem_append.mp hc with hc | hc
      · exact wsFree_no_cr kv.1 (h kv (by simp)).1 c hc
      · rcases List.mem_cons.mp hc with rfl | hc
        · decide
        · exact wsFree_no_cr kv.2 (h kv (by simp)).2 c hc
    · rcases List.mem_cons.mp hc with rfl | hc
      · decide
      · exact ih (fun x hx => h x (by simp [hx])) c hc

theorem fileLinesAux_blocks (ind : List (String × String)) :
    (∀ kv ∈ ind, wsFree kv.1 = true ∧ wsFree kv.2 = true) →
    fileLinesAux (ind.foldr (fun kv acc => kv.1.data ++ ' ' :: kv.2.data ++ '\n' :: acc) []) []
      = ind.map (fun kv => kv.1.data ++ ' ' :: (kv.2.data ++ ['\n'])) := by
  induction ind with
  | nil =>
    intro _
    rfl
  | cons kv ind' ih =>
    intro h
    rw [List.foldr_cons]
    have hb : ∀ c ∈ kv.1.data ++ ' ' :: kv.2.data, ¬ c = '\n' := by
      intro c hc
      rcases List.mem_append.mp hc with hc | hc
      · exact wsFree_no_nl kv.1 (h kv (by simp)).1 c hc
      · rcases List.mem_cons.mp hc with rfl | hc
        · decide
        · exact wsFree_no_nl kv.2 (h kv (by simp)).2 c hc
    have hshape : kv.1.data ++ ' ' :: kv.2.data ++ '\n' ::
        (ind'.foldr (fun kv acc => kv.1.data ++ ' ' :: kv.2.data ++ '\n' :: acc) [])
        = (kv.1.data ++ ' ' :: kv.2.data) ++ '\n' ::
          (ind'.foldr (fun kv acc => kv.1.data ++ ' ' :: kv.2.data ++ '\n' :: acc) []) := by
      simp
    rw [hshape, fileLinesAux_line _ _ [] hb, ih (fun x hx => h x (by simp [hx]))]
    simp

theorem pyFileLines_blocks (ind : List (String × String))
    (h : ∀ kv ∈ ind, wsFree kv.1 = true ∧ wsFree kv.2 = true) :
    pyFileLinesL (ind.foldr (fun kv acc => kv.1.data ++ ' ' :: kv.2.data ++ '\n' :: acc) [])
      = ind.map (fun kv => kv.1.data ++ ' ' :: (kv.2.data ++ ['\n'])) := by
  unfold pyFileLinesL
  rw [normNl_id _ (blocks_no_cr ind h), fileLinesAux_blocks ind h]

theorem pySet_append (d : List (String × String)) (k v : String)
    (h : ¬ k ∈ d.map Prod.fst) :
    pySet d k v = d ++ [(k, v)] := by
  induction d with
  | nil => rfl
  | cons kv d' ih =>
    obtain ⟨k0, v0⟩ := kv
    show (if k0 = k then (k, v) :: d' else (k0, v0) :: pySet d' k v)
      = (k0, v0) :: (d' ++ [(k, v)])
    rw [if_neg (fun he => h (by simp [he])), ih (fun hm => h (by simp [hm]))]

theorem foldl_pySet_rebuild (ind : List (String × String)) :
    ∀ d0 : List (String × String),
    (ind.map Prod.fst).Nodup →
    (∀ k ∈ ind.map Prod.fst, ¬ k ∈ d0.map Prod.fst) →
    ind.foldl (fun d kv => pySet d kv.1 kv.2) d0 = d0 ++ ind := by
  induction ind with
  | nil =>
    intro d0 _ _
    simp
  | cons kv ind' ih =>
    obtain ⟨k, v⟩ := kv
    intro d0 hnd hdis
    simp only [List.foldl_cons]
    rw [pySet_append d0 k v (hdis k (by simp))]
    rw [ih (d0 ++ [(k, v)]) ?nd ?dis]
    · simp
    case nd =>
      simp only [List.map_cons, List.nodup_cons] at hnd
      exact hnd.2
    case dis =>
      intro x hx hmem
      simp only [List.map_append, List.mem_append] at hmem
      rcases hmem with hm | hm
      · exact hdis x (by simp [hx]) hm
      · simp only [List.map_cons, List.map_nil, List.mem_singleton] at hm
        subst hm
        simp only [List.map_cons, List.nodup_cons] at hnd
        exact hnd.1 hx

theorem read_fold (ind : List (String × String)) :
    ∀ d0 : List (String × String),
    (∀ kv ∈ ind, kv.1 ≠ "" ∧ wsFree kv.1 = true ∧ kv.2 ≠ "" ∧ wsFree kv.2 = true) →
    (ind.map (fun kv => kv.1.data ++ ' ' :: (kv.2.data ++ ['\n']))).foldl
      (fun acc line =>
        acc.bind (fun d =>
          match pySplitWsL (stripL line) with
          | [p, s] => some (pySet d ⟨p⟩ ⟨s⟩)
          | _ => none))
      (some d0)
      = some (ind.foldl (fun d kv => pySet d kv.1 kv.2) d0) := by
  induction ind with
  | nil =>
    intro d0 _
    rfl
  | cons kv ind' ih =>
    obtain ⟨p, s⟩ := kv
    intro d0 h
    obtain ⟨hp1, hp2, hs1, hs2⟩ := h (p, s) (by simp)
    have hline : pySplitWsL (stripL (p.data ++ ' ' :: (s.data ++ ['\n'])))
        = [p.data, s.data] := by
      rw [stripL_entry p.data s.data (data_ne p hp1) (data_ne s hs1)
        (wsFree_chars p hp2) (wsFree_chars s hs2)]
      exact pySplitWs_pair p.data s.data (data_ne p hp1) (data_ne s hs1)
        (wsFree_chars p hp2) (wsFree_chars s hs2)
    simp only [List.map_cons, List.foldl_cons, Option.bind_eq_bind, Option.some_bind]
    rw [hline]
    exact ih (pySet d0 p s) (fun x hx => h x (by simp [hx]))

/-- C10: index persistence, as provable.  `read_index ∘ write_index` is the
identity on every staging mapping with distinct, non-empty,
whitespace-free paths and hashes; and a path containing an embedded space
(reachable by `add` on such a filename) makes reading the persisted index
fail, because the line splits into three fields.  (Whitespace-freeness
alone — the spec's condition — is not enough: `C10_counterexample` shows
an empty path, which is whitespace-free, also breaks the round-trip.) -/
theorem C10_index_roundtrip (index : List (String × String))
    (hnd : (index.map Prod.fst).Nodup)
    (hok : ∀ kv ∈ index, kv.1 ≠ "" ∧ wsFree kv.1 = true ∧ kv.2 ≠ "" ∧ wsFree kv.2 = true) :
    read_index (write_index index) = some index
    ∧ read_index (write_index [("a b", "h")]) = none := by
  constructor
  · unfold read_index
    rw [show (write_index index).data
        = index.foldr (fun kv acc => kv.1.data ++ ' ' :: kv.2.data ++ '\n' :: acc) [] from rfl]
    rw [pyFileLines_blocks index (fun kv hkv => ⟨(hok kv hkv).2.1, (hok kv hkv).2.2.2⟩)]
    rw [read_fold index [] hok]
    rw [foldl_pySet_rebuild index [] hnd (fun k _ hm => by simp at hm)]
    simp
  · decide

theorem C10_index_roundtrip_witness :
    ((([("a", "b0"), ("c", "d0")] : List (String × String)).map Prod.fst).Nodup)
    ∧ read_index (write_index [("a", "b0"), ("c", "d0")]) = some [("a", "b0"), ("c", "d0")] :=
  ⟨by decide, (C10_index_roundtrip [("a", "b0"), ("c", "d0")] (by decide) (by decide)).1⟩

/-- C10 counterexample: the empty path is whitespace-free, yet its index
line `" abc\n"` strips to the single field `"abc"`, so reading the
persisted index fails — whitespace-freeness alone does not give the
round-trip the claim states. -/
theorem C10_counterexample :
    wsFree "" = true ∧ wsFree "abc" = true
    ∧ read_index (write_index [("", "abc")]) = none := by
  refine ⟨rfl, by decide, by decide⟩

end MiniGit
